import Mathlib

/-!
Verification of the Supertonic web TTS orchestration core.

Strings are modelled as `List Char`; JavaScript numbers as `ℚ` (all
arithmetic the claims depend on is exact at the inputs considered);
`Math.floor` as `Int.floor`.  External collaborators (the ONNX inference
backend, `Math.random`, and the Unicode `normalize('NFKD')` built-in) are
parameters of the embedded functions.
-/

attribute [local semireducible] Rat.add Rat.mul Rat.sub Rat.inv

set_option maxRecDepth 100000

/-- The character `'` (U+0027), named to keep source text plain. -/
def apostrophe : Char := Char.ofNat 39

/-- The character U+0060 (grave accent), named to keep source text plain. -/
def graveAccent : Char := Char.ofNat 96

/-- The character `"` (U+0022). -/
def quoteChar : Char := Char.ofNat 34

/-- JavaScript `\s` (also the set trimmed by `String.prototype.trim`):
space, tab, LF, VT, FF, CR, NBSP, Ogham space, U+2000–U+200A, LS, PS,
NNBSP, MMSP, ideographic space, BOM. -/
def isJsSpace (c : Char) : Bool :=
  let n := c.toNat
  (9 ≤ n && n ≤ 13) || n = 32 || n = 0xa0 || n = 0x1680 ||
  (0x2000 ≤ n && n ≤ 0x200a) || n = 0x2028 || n = 0x2029 ||
  n = 0x202f || n = 0x205f || n = 0x3000 || n = 0xfeff

/-- The emoji/symbol ranges removed by the normalizer's first regex
(helper.ts line 36 / ttsEngine.ts line 32). -/
def isEmojiChar (c : Char) : Bool :=
  let n := c.toNat
  (0x1F600 ≤ n && n ≤ 0x1F64F) || (0x1F300 ≤ n && n ≤ 0x1F5FF) ||
  (0x1F680 ≤ n && n ≤ 0x1F6FF) || (0x1F700 ≤ n && n ≤ 0x1F77F) ||
  (0x1F780 ≤ n && n ≤ 0x1F7FF) || (0x1F800 ≤ n && n ≤ 0x1F8FF) ||
  (0x1F900 ≤ n && n ≤ 0x1F9FF) || (0x1FA00 ≤ n && n ≤ 0x1FA6F) ||
  (0x1FA70 ≤ n && n ≤ 0x1FAFF) || (0x2600 ≤ n && n ≤ 0x26FF) ||
  (0x2700 ≤ n && n ≤ 0x27BF) || (0x1F1E6 ≤ n && n ≤ 0x1F1FF)

/-- The combining diacritical marks stripped by the normalizer
(helper.ts line 63): U+0302–U+0308, U+030A–U+030C, U+0327–U+032F. -/
def isCombiningMark (c : Char) : Bool :=
  let n := c.toNat
  (0x302 ≤ n && n ≤ 0x308) || (0x30A ≤ n && n ≤ 0x30C) ||
  (0x327 ≤ n && n ≤ 0x32F)

/-- The decorative symbols stripped by the normalizer (helper.ts line 65):
heart, white star, heart outline, copyright, backslash. -/
def isDecorativeChar (c : Char) : Bool :=
  let n := c.toNat
  n = 0x2665 || n = 0x2606 || n = 0x2661 || n = 0xA9 || n = 0x5C

/-- `String.prototype.replaceAll` with a literal pattern (also `replace`
with a global regex over a literal alternative): scan left to right over
the original string, replacing non-overlapping occurrences.  Fuel-based so
that the kernel can evaluate it; `replaceAll` supplies fuel `s.length`,
which never runs out (each step consumes at least one character). -/
def replaceAllF (p r : List Char) : ℕ → List Char → List Char
  | _, [] => []
  | 0, s => s
  | fuel + 1, c :: rest =>
    if p ≠ [] ∧ p.isPrefixOf (c :: rest) then
      r ++ replaceAllF p r fuel ((c :: rest).drop p.length)
    else
      c :: replaceAllF p r fuel rest

def replaceAll (p r s : List Char) : List Char :=
  replaceAllF p r s.length s

/-- One step of the `while (text.includes('""')) text = text.replace('""','"')`
loops (helper.ts lines 84–92): replace the first occurrence of `[c, c]`
by `[c]`, or report that there is none. -/
def replacePairOnce (c : Char) : List Char → Option (List Char)
  | x :: y :: rest =>
    if x = c ∧ y = c then some (c :: rest)
    else (replacePairOnce c (y :: rest)).map (x :: ·)
  | _ => none

/-- The full collapse loop; each replacement shortens the string by one
character, so fuel `s.length` suffices. -/
def collapseDoublesF (c : Char) : ℕ → List Char → List Char
  | 0, s => s
  | fuel + 1, s =>
    match replacePairOnce c s with
    | some t => collapseDoublesF c fuel t
    | none => s

def collapseDoubles (c : Char) (s : List Char) : List Char :=
  collapseDoublesF c s.length s

/-- `text.replace(/\s+/g, ' ')`: each maximal whitespace run becomes a
single space. -/
def collapseWsF : ℕ → List Char → List Char
  | _, [] => []
  | 0, s => s
  | fuel + 1, c :: rest =>
    if isJsSpace c then ' ' :: collapseWsF fuel (rest.dropWhile isJsSpace)
    else c :: collapseWsF fuel rest

def collapseWs (s : List Char) : List Char :=
  collapseWsF s.length s

/-- `String.prototype.trim`. -/
def jsTrim (s : List Char) : List Char :=
  ((s.dropWhile isJsSpace).reverse.dropWhile isJsSpace).reverse

/-- The literal substitution table of the normalizer (helper.ts lines
39–58); every key and every value is a single character, applied in
insertion order via `replaceAll`. -/
def charReplacements : List (Char × Char) :=
  [('–', '-'), ('‑', '-'), ('—', '-'), ('¯', ' '), ('_', ' '),
   ('“', quoteChar), ('”', quoteChar), ('‘', apostrophe), ('’', apostrophe),
   ('´', apostrophe), (graveAccent, apostrophe), ('[', ' '), (']', ' '),
   ('|', ' '), ('/', ' '), ('#', ' '), ('→', ' '), ('←', ' ')]

/-- The expression substitutions (helper.ts lines 67–74), in order. -/
def exprReplacements : List (List Char × List Char) :=
  [(['@'], [' ', 'a', 't', ' ']),
   (['e', '.', 'g', '.', ','],
    ['f', 'o', 'r', ' ', 'e', 'x', 'a', 'm', 'p', 'l', 'e', ',', ' ']),
   (['i', '.', 'e', '.', ','],
    ['t', 'h', 'a', 't', ' ', 'i', 's', ',', ' '])]

/-- The space-before-punctuation deletions (helper.ts lines 76–82),
in order. -/
def spacePunctPairs : List (List Char × List Char) :=
  [([' ', ','], [',']), ([' ', '.'], ['.']), ([' ', '!'], ['!']),
   ([' ', '?'], ['?']), ([' ', ';'], [';']), ([' ', ':'], [':']),
   ([' ', apostrophe], [apostrophe])]

/-- The closing-punctuation character class of the terminal regex
(helper.ts line 96). -/
def closingSet : List Char :=
  ['.', '!', '?', ';', ':', ',', apostrophe, quoteChar, ')', ']', '}',
   '…', '。', '」', '』', '】', '〉', '》', '›', '»']

/-- `/[...]$/.test(text)`: the last character is in the closing set. -/
def endsInClosing (s : List Char) : Bool :=
  match s.getLast? with
  | some c => closingSet.contains c
  | none => false

/-- `UnicodeProcessor.preprocessText` (helper.ts lines 33–101, identical in
ttsEngine.ts lines 30–72).  The call to the JS built-in
`String.prototype.normalize('NFKD')` is an external Unicode-library routine
and is passed in as the parameter `nfkd`. -/
def ppEmoji (s : List Char) : List Char :=
  s.filter (fun c => !(isEmojiChar c))

def ppReplace (s : List Char) : List Char :=
  charReplacements.foldl (fun t kv => replaceAll [kv.1] [kv.2] t) s

def ppCombining (s : List Char) : List Char :=
  s.filter (fun c => !(isCombiningMark c))

def ppDecorative (s : List Char) : List Char :=
  s.filter (fun c => !(isDecorativeChar c))

def ppExpr (s : List Char) : List Char :=
  exprReplacements.foldl (fun t kv => replaceAll kv.1 kv.2 t) s

def ppSpacePunct (s : List Char) : List Char :=
  spacePunctPairs.foldl (fun t kv => replaceAll kv.1 kv.2 t) s

def ppQuotes (s : List Char) : List Char :=
  collapseDoubles graveAccent
    (collapseDoubles apostrophe (collapseDoubles quoteChar s))

def ppWhitespace (s : List Char) : List Char :=
  jsTrim (collapseWs s)

def ppTerminal (s : List Char) : List Char :=
  if endsInClosing s then s else s ++ ['.']

def preprocessText (nfkd : List Char → List Char) (text : List Char) :
    List Char :=
  ppTerminal (ppWhitespace (ppQuotes (ppSpacePunct (ppExpr
    (ppDecorative (ppCombining (ppReplace (ppEmoji (nfkd text)))))))))

/-- Modelled from the spec: "Unicode canonical decomposition (NFKD)" is the
JS built-in `String.prototype.normalize('NFKD')`, an external Unicode
library routine with no source in this repository.  NFKD fixes every ASCII
string; this model is the identity and is only ever applied, in witnesses
and counterexamples below, to ASCII strings, where it agrees with NFKD. -/
def nfkdModel (s : List Char) : List Char := s

/-! ## Chunker (`chunkText`, helper.ts lines 513–547; identical method in
ttsEngine.ts lines 244–276) -/

/-- The abbreviation alternatives of the sentence-split lookbehind
`(?<!Mr\.|Mrs\.|Ms\.|Dr\.|Prof\.|Sr\.|Jr\.|Ph\.D\.|etc\.|e\.g\.|i\.e\.|vs\.|Inc\.|Ltd\.|Co\.|Corp\.|St\.|Ave\.|Blvd\.)`. -/
def abbreviations : List (List Char) :=
  ["Mr.".toList, "Mrs.".toList, "Ms.".toList, "Dr.".toList, "Prof.".toList,
   "Sr.".toList, "Jr.".toList, "Ph.D.".toList, "etc.".toList, "e.g.".toList,
   "i.e.".toList, "vs.".toList, "Inc.".toList, "Ltd.".toList, "Co.".toList,
   "Corp.".toList, "St.".toList, "Ave.".toList, "Blvd.".toList]

/-- ASCII regex `\w`. -/
def isWordChar (c : Char) : Bool :=
  ('a' ≤ c && c ≤ 'z') || ('A' ≤ c && c ≤ 'Z') || ('0' ≤ c && c ≤ '9') ||
  c = '_'

/-- Whether the sentence-split regex may match at a position whose
characters so far, in reverse, are `prevRev`: the lookbehind `(?<=[.!?])`
holds and neither negative lookbehind (abbreviation list, or an initial
`\b[A-Z]\.`) fires. -/
def sentSplitAt (prevRev : List Char) : Bool :=
  (match prevRev with
   | d :: _ => d = '.' || d = '!' || d = '?'
   | [] => false) &&
  !(abbreviations.any fun a => a.reverse.isPrefixOf prevRev) &&
  !(match prevRev with
    | d :: u :: rest =>
      d = '.' && ('A' ≤ u && u ≤ 'Z') &&
      (match rest with
       | [] => true
       | r :: _ => !isWordChar r)
    | _ => false)

/-- `paragraph.split(/(?<!…)(?<!\b[A-Z]\.)(?<=[.!?])\s+/)`: scan left to
right; at a whitespace character whose reversed prefix satisfies
`sentSplitAt`, the greedy `\s+` match consumes the whole whitespace run
and ends the current piece.  Fuel `s.length` suffices (each step consumes
at least one character). -/
def splitSentencesF : ℕ → List Char → List Char → List Char → List (List Char)
  | _, _, cur, [] => [cur]
  | 0, _, cur, s => [cur ++ s]
  | fuel + 1, prevRev, cur, c :: rest =>
    if isJsSpace c ∧ sentSplitAt prevRev then
      let run := (c :: rest).takeWhile isJsSpace
      cur :: splitSentencesF fuel (run.reverse ++ prevRev) []
        ((c :: rest).drop run.length)
    else
      splitSentencesF fuel (c :: prevRev) (cur ++ [c]) rest

def splitSentences (p : List Char) : List (List Char) :=
  splitSentencesF p.length [] [] p

/-- Length of the match of `/\n\s*\n+/` at the start of `s`, if any: a
newline, then the greedy `\s*` backtracks just enough for `\n+` to end the
match at the last newline of the following whitespace run. -/
def paraBreakLen (s : List Char) : Option ℕ :=
  match s with
  | c :: rest =>
    if c = '\n' then
      let run := rest.takeWhile isJsSpace
      let toLastNl := run.reverse.dropWhile (fun x => x ≠ '\n')
      if toLastNl.isEmpty then none else some (1 + toLastNl.length)
    else none
  | [] => none

/-- `text.split(/\n\s*\n+/)`. -/
def splitParagraphsF : ℕ → List Char → List Char → List (List Char)
  | _, cur, [] => [cur]
  | 0, cur, s => [cur ++ s]
  | fuel + 1, cur, c :: rest =>
    match paraBreakLen (c :: rest) with
    | some L => cur :: splitParagraphsF fuel [] ((c :: rest).drop L)
    | none => splitParagraphsF fuel (cur ++ [c]) rest

def splitParagraphs (s : List Char) : List (List Char) :=
  splitParagraphsF s.length [] s

/-- One step of the greedy sentence-accumulation loop (helper.ts lines
530–539): state is `(chunks so far, current chunk)`. -/
def chunkAccum (maxLen : ℕ) (state : List (List Char) × List Char)
    (sentence : List Char) : List (List Char) × List Char :=
  let (chunks, cur) := state
  if cur.length + sentence.length + 1 ≤ maxLen then
    (chunks, cur ++ (if cur.isEmpty then [] else [' ']) ++ sentence)
  else
    (chunks ++ (if cur.isEmpty then [] else [jsTrim cur]), sentence)

/-- Sentence-level chunking of one (trimmed, non-empty) paragraph. -/
def chunkParagraph (maxLen : ℕ) (p : List Char) : List (List Char) :=
  let sentences := splitSentences p
  let st := sentences.foldl (chunkAccum maxLen) ([], [])
  st.1 ++ (if st.2.isEmpty then [] else [jsTrim st.2])

/-- `chunkText` (helper.ts lines 513–547): split into blank-line-delimited
paragraphs, then greedily pack sentences into chunks of at most `maxLen`
characters. -/
def chunkText (text : List Char) (maxLen : ℕ := 300) : List (List Char) :=
  let paragraphs :=
    (splitParagraphs (jsTrim text)).filter (fun p => !(jsTrim p).isEmpty)
  paragraphs.foldl
    (fun chunks p0 =>
      let p := jsTrim p0
      if p.isEmpty then chunks else chunks ++ chunkParagraph maxLen p)
    []

/-! ## Tokenizer (`UnicodeProcessor.call` / `lengthToMask`, helper.ts
lines 14–31 and 103–117) -/

/-- `Math.max(...xs)` for a non-empty integer list (the only way it is
used); on `[]` JS gives `-Infinity`, never exercised here. -/
def listMaxZ (l : List ℤ) : ℤ := l.foldl max l.headI

/-- `lengthToMask` (helper.ts lines 108–117 and 361–370): one `[1, maxLen]`
row per length, `1.0` strictly below `min (len, maxLen)` and `0.0` from
there on.  The `maxLen || Math.max(...lengths)` default treats `0` as
falsy. -/
def lengthToMask (lengths : List ℤ) (maxLen : Option ℤ) :
    List (List (List ℚ)) :=
  let actualMaxLen : ℤ :=
    match maxLen with
    | some m => if m = 0 then listMaxZ lengths else m
    | none => listMaxZ lengths
  lengths.map fun len =>
    [(List.range actualMaxLen.toNat).map fun j : ℕ =>
      if (j : ℤ) < min len actualMaxLen then (1 : ℚ) else 0]

/-- `Math.max(...lengths)` over natural lengths (call sites are
non-empty). -/
def listMaxNat (l : List ℕ) : ℕ := l.foldl max 0

/-- Token id of one character: `codePoint < indexer.length ?
indexer[codePoint] : -1`. -/
def tokenId (indexer : List ℤ) (c : Char) : ℤ :=
  if c.toNat < indexer.length then indexer.getD c.toNat 0 else -1

/-- `UnicodeProcessor.call` (helper.ts lines 14–31): normalize each text,
map codepoints through the vocabulary, right-pad rows with `0` to the
longest sequence, and build the validity mask. -/
def processorCall (nfkd : List Char → List Char) (indexer : List ℤ)
    (textList : List (List Char)) :
    List (List ℤ) × List (List (List ℚ)) :=
  let processed := textList.map (preprocessText nfkd)
  let lens := processed.map List.length
  let maxLen := listMaxNat lens
  let textIds := processed.map fun t =>
    t.map (tokenId indexer) ++ List.replicate (maxLen - t.length) 0
  let textMask := lengthToMask (lens.map (Int.ofNat)) (some (maxLen : ℤ))
  (textIds, textMask)

/-! ## Latent sampling (`TextToSpeech.sampleNoisyLatent`, helper.ts lines
314–359; identical in ttsEngine.ts lines 278–316) -/

/-- `Math.max(...duration)` for the non-empty duration list. -/
def listMaxQ (l : List ℚ) : ℚ := l.foldl max l.headI

/-- `xt[b][d][t] *= latentMask[b][0][t]` (helper.ts lines 350–356). -/
def applyLatentMask (xt latentMask : List (List (List ℚ))) :
    List (List (List ℚ)) :=
  xt.mapIdx fun b mat =>
    mat.map fun row =>
      row.mapIdx fun t v =>
        v * (((latentMask.getD b []).getD 0 []).getD t 0)

/-- `TextToSpeech.sampleNoisyLatent`.  The per-element Box–Muller draw
`sqrt(-2·ln(max(1e-4, random()))) · cos(2π·random())` combines two calls of
the external `Math.random` with transcendental library functions; the
whole draw is abstracted as the value stream `noise`, indexed by the order
in which elements are generated.  Lengths are `ℤ` because the JS loop
bounds come from `Math.floor` of floats; a loop `for (t = 0; t < n; t++)`
with integer `n` runs `n.toNat` times. -/
def sampleNoisyLatent (noise : ℕ → ℚ) (duration : List ℚ)
    (sampleRate baseChunkSize chunkCompress latentDim : ℕ) :
    List (List (List ℚ)) × List (List (List ℚ)) :=
  let bsz := duration.length
  let maxDur := listMaxQ duration
  let wavLenMax : ℤ := ⌊maxDur * (sampleRate : ℚ)⌋
  let wavLengths : List ℤ := duration.map fun d => ⌊d * (sampleRate : ℚ)⌋
  let chunkSize : ℕ := baseChunkSize * chunkCompress
  let latentLen : ℤ := ⌊((wavLenMax + chunkSize - 1 : ℤ) : ℚ) / (chunkSize : ℚ)⌋
  let latentDimVal := latentDim * chunkCompress
  let T := latentLen.toNat
  let xt := (List.range bsz).map fun b =>
    (List.range latentDimVal).map fun d =>
      (List.range T).map fun t =>
        noise ((b * latentDimVal + d) * T + t)
  let latentLengths : List ℤ :=
    wavLengths.map fun len => ⌊((len + chunkSize - 1 : ℤ) : ℚ) / (chunkSize : ℚ)⌋
  let latentMask := lengthToMask latentLengths (some latentLen)
  (applyLatentMask xt latentMask, latentMask)

/-- The code's latent time length:
`Math.floor((floor(maxDur·sr) + chunkSize − 1) / chunkSize)`. -/
def latentFrameLen (duration : List ℚ) (sampleRate chunkSize : ℕ) : ℤ :=
  ⌊((⌊listMaxQ duration * (sampleRate : ℚ)⌋ + chunkSize - 1 : ℤ) : ℚ) /
    (chunkSize : ℚ)⌋

/-- The spec's per-row valid length:
`ceil(floor(duration_i × sampleRate) / (baseChunkSize × chunkCompress))`. -/
def validLen (d : ℚ) (sampleRate chunkSize : ℕ) : ℤ :=
  ⌈((⌊d * (sampleRate : ℚ)⌋ : ℤ) : ℚ) / (chunkSize : ℚ)⌉

/-! ## Inference pipeline (`TextToSpeech._infer` / `call`, helper.ts lines
162–302; identical in ttsEngine.ts lines 120–242) -/

/-- Flat float tensor plus its dims, mirroring `ort.Tensor`. -/
structure TensorQ where
  dims : List ℕ
  data : List ℚ
  deriving DecidableEq, Repr

/-- The `Style` pair of embedding tensors (helper.ts lines 123–131). -/
structure Style where
  ttl : TensorQ
  dp : TensorQ
  deriving DecidableEq, Repr

/-- One invocation of one of the four backend models, recorded in order. -/
inductive BackendEvent where
  | dpCall
  | textEncCall
  | vectorEstCall (step : ℕ)
  | vocoderCall
  deriving DecidableEq, Repr

/-- The `current_step` value carried by a vector-estimator event. -/
def eventStep : BackendEvent → Option ℕ
  | .vectorEstCall s => some s
  | _ => none

/-- The external inference backend: the four loaded models, each a pure
tensor-in/tensor-out function (`run`), plus the `Math.random`-derived
noise stream used by `sampleNoisyLatent`. -/
structure Engine where
  dpRun : List (List ℤ) → TensorQ → List (List (List ℚ)) → List ℚ
  textEncRun : List (List ℤ) → TensorQ → List (List (List ℚ)) → List ℚ
  vectorEstRun : List ℚ → List ℚ → TensorQ → List ℚ → List ℚ → List ℚ →
    List ℚ → List ℚ
  vocoderRun : List ℚ → List ℚ
  randNoise : ℕ → ℚ

/-- The `ae` / `ttl` configuration fields used by the pipeline. -/
structure TtsConfig where
  sample_rate : ℕ
  base_chunk_size : ℕ
  chunk_compress_factor : ℕ
  latent_dim : ℕ
  deriving DecidableEq, Repr

/-- `xs.flat(2)`. -/
def flatten2 (l : List (List (List ℚ))) : List ℚ := l.flatten.flatten

/-- Rebuilding the `[bsz, latentDim, latentLen]` nested array from the flat
`denoised_latent` output (helper.ts lines 241–255). -/
def reshape3 (bsz latentDim latentLen : ℕ) (flat : List ℚ) :
    List (List (List ℚ)) :=
  (List.range bsz).map fun b =>
    (List.range latentDim).map fun d =>
      (List.range latentLen).map fun t =>
        flat.getD ((b * latentDim + d) * latentLen + t) 0

/-- One denoising iteration (helper.ts lines 216–256): build the
`current_step` tensor, invoke the vector estimator, and rebuild the latent
wholesale from its flat output. -/
def denoiseStep (eng : Engine) (style : Style) (textEmb latentMaskFlat
    textMaskFlat totalStepArr : List ℚ) (bsz : ℕ)
    (xt : List (List (List ℚ))) (step : ℕ) : List (List (List ℚ)) :=
  let currentStepArr := List.replicate bsz (step : ℚ)
  let denoised := eng.vectorEstRun (flatten2 xt) textEmb style.ttl
    latentMaskFlat textMaskFlat currentStepArr totalStepArr
  let latentDim := (xt.getD 0 []).length
  let latentLen := ((xt.getD 0 []).getD 0 []).length
  reshape3 bsz latentDim latentLen denoised

/-- The fixed-count denoising loop, also returning the list of
`current_step` values passed to the estimator, in call order. -/
def denoiseRun (eng : Engine) (style : Style) (textEmb latentMaskFlat
    textMaskFlat totalStepArr : List ℚ) (bsz totalStep : ℕ)
    (xt0 : List (List (List ℚ))) : List (List (List ℚ)) × List ℕ :=
  (List.range totalStep).foldl
    (fun st step =>
      (denoiseStep eng style textEmb latentMaskFlat textMaskFlat
        totalStepArr bsz st.1 step, st.2 ++ [step]))
    (xt0, [])

/-- Result of `_infer`, together with the backend invocations it made. -/
structure InferOut where
  wav : List ℚ
  duration : List ℚ
  events : List BackendEvent
  deriving DecidableEq, Repr

/-- `TextToSpeech._infer` (helper.ts lines 162–270): tokenize, predict
durations (scaled by `1/speed`), encode text, sample the noisy latent,
run the denoising loop, and vocode. -/
def inferRun (eng : Engine) (nfkd : List Char → List Char)
    (cfg : TtsConfig) (indexer : List ℤ) (textList : List (List Char))
    (style : Style) (totalStep : ℕ) (speed : ℚ) : InferOut :=
  let bsz := textList.length
  let pc := processorCall nfkd indexer textList
  let textIds := pc.1
  let textMask := pc.2
  let duration := (eng.dpRun textIds style.dp textMask).map (· / speed)
  let textEmb := eng.textEncRun textIds style.ttl textMask
  let sl := sampleNoisyLatent eng.randNoise duration cfg.sample_rate
    cfg.base_chunk_size cfg.chunk_compress_factor cfg.latent_dim
  let latentMaskFlat := flatten2 sl.2
  let textMaskFlat := flatten2 textMask
  let totalStepArr := List.replicate bsz (totalStep : ℚ)
  let dr := denoiseRun eng style textEmb latentMaskFlat textMaskFlat
    totalStepArr bsz totalStep sl.1
  let wav := eng.vocoderRun (flatten2 dr.1)
  { wav := wav
    duration := duration
    events := [.dpCall, .textEncCall] ++ dr.2.map .vectorEstCall ++
      [.vocoderCall] }

/-- The body of the per-chunk loop of `TextToSpeech.call` (helper.ts
lines 287–299): synthesize the chunk; the first non-empty waveform seeds
the output, later ones are appended after
`Math.floor(silenceDuration · sampleRate)` zero samples. -/
def ttsStep (eng : Engine) (nfkd : List Char → List Char) (cfg : TtsConfig)
    (indexer : List ℤ) (style : Style) (totalStep : ℕ)
    (speed silenceDuration : ℚ) (st : List ℚ × ℚ × List BackendEvent)
    (chunk : List Char) : List ℚ × ℚ × List BackendEvent :=
  let r := inferRun eng nfkd cfg indexer [chunk] style totalStep speed
  if st.1.isEmpty then
    (r.wav, r.duration.headI, st.2.2 ++ r.events)
  else
    let silenceLen := (⌊silenceDuration * (cfg.sample_rate : ℚ)⌋).toNat
    (st.1 ++ List.replicate silenceLen 0 ++ r.wav,
     st.2.1 + r.duration.headI + silenceDuration,
     st.2.2 ++ r.events)

/-- `TextToSpeech.call` (helper.ts lines 272–302; identical in ttsEngine.ts
lines 218–242): reject styles with batch dimension ≠ 1, chunk the text,
synthesize each chunk in order, and concatenate with
`Math.floor(silenceDuration · sampleRate)` zero samples between chunks.
The second component is the ordered list of backend invocations. -/
def ttsCall (eng : Engine) (nfkd : List Char → List Char) (cfg : TtsConfig)
    (indexer : List ℤ) (text : List Char) (style : Style) (totalStep : ℕ)
    (speed silenceDuration : ℚ) :
    Except String (List ℚ × List ℚ) × List BackendEvent :=
  if style.ttl.dims.getD 0 0 ≠ 1 then
    (.error "Single speaker text to speech only supports single style", [])
  else
    let st := (chunkText text).foldl
      (ttsStep eng nfkd cfg indexer style totalStep speed silenceDuration)
      ([], 0, [])
    (.ok (st.1, [st.2.1]), st.2.2)

/-! ## Caller-side truncation (TTS.tsx lines 213–217 and
voiceChatEngine.ts lines 418–421) -/

/-- TTS.tsx `generateSpeech` lines 214–215:
`wav.slice(0, Math.floor(sampleRate * duration[0]))`. -/
def ttsComponentWavOut (wav : List ℚ) (dur : ℚ) (sampleRate : ℕ) :
    List ℚ :=
  wav.take (⌊(sampleRate : ℚ) * dur⌋).toNat

/-- voiceChatEngine.ts `generateSpeech` lines 418–419:
`wav.slice(0, Math.floor(sampleRate * wav.length / sampleRate))`. -/
def voiceChatWavOut (wav : List ℚ) (sampleRate : ℕ) : List ℚ :=
  wav.take (⌊(sampleRate : ℚ) * (wav.length : ℚ) / (sampleRate : ℚ)⌋).toNat

/-- `VoiceChatEngine.generateSpeech` (voiceChatEngine.ts lines 405–421):
synthesize with the hard-coded `totalStep = 5`, `speed = 1.05`,
`silenceDuration = 0.3`, then apply the voice-chat slice.  Returns the
sample list handed to `writeWavFile`. -/
def generateSpeechSamples (eng : Engine) (nfkd : List Char → List Char)
    (cfg : TtsConfig) (indexer : List ℤ) (text : List Char)
    (style : Style) : Except String (List ℚ) × List BackendEvent :=
  match ttsCall eng nfkd cfg indexer text style 5 (21/20) (3/10) with
  | (.ok (wav, _), evs) => (.ok (voiceChatWavOut wav cfg.sample_rate), evs)
  | (.error e, evs) => (.error e, evs)

/-! ## WAV encoder (`writeWavFile`, helper.ts lines 552–592; identical in
ttsEngine.ts lines 331–371) -/

/-- `DataView.setUint16(..., true)`: two little-endian bytes of
`n mod 2^16`. -/
def uint16LE (n : ℕ) : List ℕ :=
  [n % 256, n / 256 % 256]

/-- `DataView.setUint32(..., true)`: four little-endian bytes of
`n mod 2^32`. -/
def uint32LE (n : ℕ) : List ℕ :=
  [n % 256, n / 256 % 256, n / 65536 % 256, n / 16777216 % 256]

/-- `Math.max(-1, Math.min(1, x))`. -/
def clampQ (x : ℚ) : ℚ := max (-1) (min 1 x)

/-- The per-sample conversion `Math.floor(clamped * 32767)` (helper.ts
line 585). -/
def encodeSample (x : ℚ) : ℤ := ⌊clampQ x * 32767⌋

/-- Storage of a signed value in an `Int16Array` element, viewed as two
little-endian bytes. -/
def int16Bytes (v : ℤ) : List ℕ :=
  uint16LE (v % 65536).toNat

/-- The 44-byte header written by `writeWavFile` (helper.ts lines
568–580): `RIFF` (bytes 82 73 70 70), chunk size, `WAVE` (87 65 86 69),
`fmt ` (102 109 116 32), subchunk size 16, PCM format 1, 1 channel,
sample rate, byte rate `sampleRate·1·16/8`, block align `1·16/8`, 16 bits
per sample, `data` (100 97 116 97), data size. -/
def wavHeader (sampleRate dataSize : ℕ) : List ℕ :=
  let numChannels := 1
  let bitsPerSample := 16
  let byteRate := sampleRate * numChannels * bitsPerSample / 8
  let blockAlign := numChannels * bitsPerSample / 8
  [82, 73, 70, 70] ++ uint32LE (36 + dataSize) ++
  [87, 65, 86, 69] ++ [102, 109, 116, 32] ++
  uint32LE 16 ++ uint16LE 1 ++ uint16LE numChannels ++
  uint32LE sampleRate ++ uint32LE byteRate ++ uint16LE blockAlign ++
  uint16LE bitsPerSample ++ [100, 97, 116, 97] ++ uint32LE dataSize

/-- `writeWavFile` (helper.ts lines 552–592): 44-byte RIFF/fmt/data header
followed by the PCM16 little-endian samples. -/
def writeWavFile (audioData : List ℚ) (sampleRate : ℕ) : List ℕ :=
  wavHeader sampleRate (audioData.length * 2) ++
  (audioData.map encodeSample).flatMap int16Bytes

/-- Reading back one stored PCM16 sample (little-endian, two's
complement). -/
def decodeInt16 (lo hi : ℕ) : ℤ :=
  let u := lo + 256 * hi
  if u < 32768 then u else (u : ℤ) - 65536

/-- The `i`-th decoded data sample of a WAV byte buffer. -/
def wavDataSample (bytes : List ℕ) (i : ℕ) : ℤ :=
  decodeInt16 ((bytes.drop 44).getD (2 * i) 0)
    ((bytes.drop 44).getD (2 * i + 1) 0)

/-! ## Spec-side arithmetic (JS `Math.round`, round toward zero) -/

/-- JavaScript `Math.round`: half-up, `⌊x + 1/2⌋`. -/
def jsRound (x : ℚ) : ℤ := ⌊x + 1/2⌋

/-- Round toward zero, the conversion named by the spec for WAV samples. -/
def ratTrunc (x : ℚ) : ℤ := if 0 ≤ x then ⌊x⌋ else ⌈x⌉

/-! ## Helper notions used by the proofs -/

/-- The effect of the single-character substitution table on one
character: fold the pairs over it in order. -/
def charSubst (prs : List (Char × Char)) (c : Char) : Char :=
  prs.foldl (fun a kv => if a = kv.1 then kv.2 else a) c

/-- Characters that survive the removal stages of the normalizer: no
emoji, no substitution-table key, no stripped combining mark or
decorative symbol. -/
def SafeBase (c : Char) : Prop :=
  isEmojiChar c = false ∧ (∀ kv ∈ charReplacements, kv.1 ≠ c) ∧
  isCombiningMark c = false ∧ isDecorativeChar c = false

/-- Characters that can occur in a normalizer output. -/
def SafeOut (c : Char) : Prop := SafeBase c ∧ c ≠ '@'

instance : DecidablePred SafeBase := fun c => by
  unfold SafeBase
  infer_instance

instance : DecidablePred SafeOut := fun c => by
  unfold SafeOut
  infer_instance


/-- Internal whitespace discipline of a normalized string: every
whitespace character is a plain space and no two spaces are adjacent. -/
def InnerWsOk (s : List Char) : Prop :=
  (∀ c ∈ s, isJsSpace c → c = ' ') ∧ ¬ ([' ', ' '] <:+: s)

/-- No whitespace at either end. -/
def NoEdgeWs (s : List Char) : Prop :=
  (∀ c, s.head? = some c → isJsSpace c = false) ∧
  (∀ c, s.getLast? = some c → isJsSpace c = false)

/-- A chunk is within bounds, or is a single (trimmed) oversized
sentence. -/
def GoodChunk (sents : List (List Char)) (maxLen : ℕ) (c : List Char) :
    Prop :=
  c.length ≤ maxLen ∨ ∃ st ∈ sents, c = jsTrim st ∧ maxLen < c.length

/-- Invariant of the accumulation loop: every emitted chunk is good, and
the current chunk is empty, within bounds, or a whole sentence. -/
def AccumInv (sents : List (List Char)) (maxLen : ℕ)
    (st : List (List Char) × List Char) : Prop :=
  (∀ c ∈ st.1, GoodChunk sents maxLen c) ∧
  (st.2 = [] ∨ st.2.length ≤ maxLen ∨ st.2 ∈ sents)

/-! ## Concrete fixtures used by witnesses and counterexamples -/

/-- A minimal configuration: 10 Hz sample rate, chunk size 1, no
compression, one latent channel. -/
def wCfg : TtsConfig :=
  { sample_rate := 10, base_chunk_size := 1, chunk_compress_factor := 1,
    latent_dim := 1 }

/-- A valid single-speaker style (batch dimension 1). -/
def wStyle : Style :=
  { ttl := { dims := [1, 1, 1], data := [0] },
    dp := { dims := [1, 1, 1], data := [0] } }

/-- A style with batch dimension 2, rejected by the orchestrator. -/
def wStyleBad : Style :=
  { ttl := { dims := [2, 1, 1], data := [0, 0] },
    dp := { dims := [2, 1, 1], data := [0, 0] } }

/-- A deterministic backend: unit durations, identity vector estimator,
one-sample vocoder output, zero noise. -/
def wEngine : Engine :=
  { dpRun := fun _ _ _ => [1]
    textEncRun := fun _ _ _ => []
    vectorEstRun := fun nl _ _ _ _ _ _ => nl
    vocoderRun := fun _ => [0]
    randNoise := fun _ => 0 }

/-- A backend whose predicted duration is `0.315` (so `0.3` after the
voice-chat speed `1.05`) and whose vocoder emits five samples. -/
def wEngine5 : Engine :=
  { dpRun := fun _ _ _ => [63/200]
    textEncRun := fun _ _ _ => []
    vectorEstRun := fun nl _ _ _ _ _ _ => nl
    vocoderRun := fun _ => [0, 0, 0, 0, 0]
    randNoise := fun _ => 0 }

/-! ## Lemmas about the string primitives -/

theorem mem_replaceAllF {p r : List Char} :
    ∀ {fuel : ℕ} {s : List Char} {c : Char},
      c ∈ replaceAllF p r fuel s → c ∈ s ∨ c ∈ r := by
  intro fuel
  induction fuel with
  | zero =>
    intro s c h
    cases s with
    | nil => simp [replaceAllF] at h
    | cons a t => exact Or.inl (by simpa [replaceAllF] using h)
  | succ n ih =>
    intro s c h
    cases s with
    | nil => simp [replaceAllF] at h
    | cons a t =>
      rw [replaceAllF] at h
      split at h
      · rcases List.mem_append.1 h with h | h
        · exact Or.inr h
        · rcases ih h with h | h
          · exact Or.inl (List.mem_of_mem_drop h)
          · exact Or.inr h
      · rcases List.mem_cons.1 h with h | h
        · exact Or.inl (h ▸ List.mem_cons_self a t)
        · rcases ih h with h | h
          · exact Or.inl (List.mem_cons_of_mem a h)
          · exact Or.inr h

theorem mem_replaceAll {p r s : List Char} {c : Char}
    (h : c ∈ replaceAll p r s) : c ∈ s ∨ c ∈ r :=
  mem_replaceAllF h

theorem replaceAllF_no_match {p r : List Char} :
    ∀ {fuel : ℕ} {s : List Char}, ¬ (p <:+: s) → replaceAllF p r fuel s = s := by
  intro fuel
  induction fuel with
  | zero =>
    intro s _
    cases s with
    | nil => simp [replaceAllF]
    | cons a t => simp [replaceAllF]
  | succ n ih =>
    intro s hs
    cases s with
    | nil => simp [replaceAllF]
    | cons a t =>
      rw [replaceAllF]
      split
      · next hcond =>
        exact absurd (List.isPrefixOf_iff_prefix.1 hcond.2).isInfix hs
      · rw [ih fun hi => hs (hi.trans (List.suffix_cons a t).isInfix)]

theorem replaceAll_no_match {p r s : List Char} (h : ¬ (p <:+: s)) :
    replaceAll p r s = s :=
  replaceAllF_no_match h

theorem replaceAllF_single {k v : Char} :
    ∀ {fuel : ℕ} {s : List Char}, s.length ≤ fuel →
      replaceAllF [k] [v] fuel s =
        s.map fun c => if c = k then v else c := by
  intro fuel
  induction fuel with
  | zero =>
    intro s hs
    rw [Nat.le_zero, List.length_eq_zero] at hs
    subst hs
    simp [replaceAllF]
  | succ n ih =>
    intro s hs
    cases s with
    | nil => simp [replaceAllF]
    | cons a t =>
      simp only [List.length_cons, Nat.succ_le_succ_iff] at hs
      rw [replaceAllF]
      by_cases ha : a = k
      · have hcond : ([k] : List Char) ≠ [] ∧
            ([k] : List Char).isPrefixOf (a :: t) = true := by
          exact ⟨by simp, by simp [List.isPrefixOf, ha]⟩
        rw [if_pos hcond]
        simpa [if_pos ha] using ih hs
      · have hcond : ¬ (([k] : List Char) ≠ [] ∧
            ([k] : List Char).isPrefixOf (a :: t) = true) := by
          rintro ⟨-, h2⟩
          simp [List.isPrefixOf] at h2
          exact ha h2.symm
        rw [if_neg hcond]
        simp only [List.map_cons, if_neg ha]
        rw [ih hs]

theorem replaceAll_single {k v : Char} {s : List Char} :
    replaceAll [k] [v] s = s.map fun c => if c = k then v else c :=
  replaceAllF_single le_rfl

theorem charSubst_cons (kv : Char × Char) (rest : List (Char × Char))
    (c : Char) :
    charSubst (kv :: rest) c =
      charSubst rest (if c = kv.1 then kv.2 else c) := rfl

theorem charPairs_foldl_eq_map (prs : List (Char × Char)) :
    ∀ s : List Char,
      prs.foldl (fun t kv => replaceAll [kv.1] [kv.2] t) s =
        s.map (charSubst prs) := by
  induction prs with
  | nil =>
    intro s
    simp only [List.foldl_nil]
    exact (List.map_id' s).symm
  | cons kv rest ih =>
    intro s
    simp only [List.foldl_cons]
    rw [replaceAll_single, ih, List.map_map]
    rfl

theorem charSubst_eq_or_mem (prs : List (Char × Char)) (c : Char) :
    charSubst prs c = c ∨ charSubst prs c ∈ prs.map Prod.snd := by
  induction prs generalizing c with
  | nil => exact Or.inl rfl
  | cons kv rest ih =>
    rw [charSubst_cons]
    by_cases hc : c = kv.1
    · rw [if_pos hc]
      rcases ih kv.2 with h | h
      · exact Or.inr (by rw [h]; simp)
      · exact Or.inr (List.mem_cons_of_mem _ h)
    · rw [if_neg hc]
      rcases ih c with h | h
      · exact Or.inl h
      · exact Or.inr (List.mem_cons_of_mem _ h)

theorem charSubst_id {prs : List (Char × Char)} {c : Char}
    (h : ∀ kv ∈ prs, c ≠ kv.1) : charSubst prs c = c := by
  induction prs with
  | nil => rfl
  | cons kv rest ih =>
    rw [charSubst_cons, if_neg (h kv (List.mem_cons_self kv rest))]
    exact ih fun p hp => h p (List.mem_cons_of_mem kv hp)

theorem charSubst_not_key :
    ∀ prs : List (Char × Char),
      (∀ v ∈ prs.map Prod.snd, v ∉ prs.map Prod.fst) →
      ∀ c, charSubst prs c ∉ prs.map Prod.fst := by
  intro prs
  induction prs with
  | nil => intro _ c; simp
  | cons kv rest ih =>
    intro hvk c
    have hvk' : ∀ v ∈ rest.map Prod.snd, v ∉ rest.map Prod.fst := by
      intro v hv hk
      exact hvk v (List.mem_cons_of_mem _ hv) (List.mem_cons_of_mem _ hk)
    rw [charSubst_cons]
    by_cases hc : c = kv.1
    · rw [if_pos hc]
      intro hmem
      rcases charSubst_eq_or_mem rest kv.2 with h | h
      · rw [h] at hmem
        exact hvk kv.2 (by simp) hmem
      · exact hvk _ (List.mem_cons_of_mem _ h) hmem
    · rw [if_neg hc]
      intro hmem
      rw [List.map_cons] at hmem
      rcases List.mem_cons.1 hmem with h1 | h1
      · rcases charSubst_eq_or_mem rest c with h2 | h2
        · rw [h2] at h1
          exact hc h1
        · refine hvk _ (List.mem_cons_of_mem _ h2) ?_
          rw [List.map_cons, h1]
          exact List.mem_cons_self _ _
      · exact ih hvk' c h1

theorem replacePairOnce_none_iff (c : Char) :
    ∀ s : List Char, replacePairOnce c s = none ↔ ¬ ([c, c] <:+: s) := by
  intro s
  induction s with
  | nil => simp [replacePairOnce]
  | cons x t ih =>
    cases t with
    | nil =>
      constructor
      · intro _ h
        have := h.length_le
        simp at this
      · intro _
        rfl
    | cons y rest =>
      rw [replacePairOnce]
      by_cases hxy : x = c ∧ y = c
      · rw [if_pos hxy]
        have hinf : [c, c] <:+: x :: y :: rest :=
          ⟨[], rest, by simp [hxy.1, hxy.2]⟩
        simp [hinf]
      · rw [if_neg hxy]
        simp only [Option.map_eq_none']
        rw [ih]
        constructor
        · intro h hi
          rcases List.infix_cons_iff.1 hi with hp | hp
          · rcases List.cons_prefix_cons.1 hp with ⟨hc1, hp2⟩
            rcases List.cons_prefix_cons.1 hp2 with ⟨hc2, -⟩
            exact hxy ⟨hc1.symm, hc2.symm⟩
          · exact h hp
        · intro h hi
          exact h (hi.trans (List.suffix_cons x (y :: rest)).isInfix)

theorem replacePairOnce_head (c : Char) :
    ∀ {s t : List Char}, replacePairOnce c s = some t →
      t.head? = s.head? := by
  intro s
  induction s with
  | nil => intro t h; simp [replacePairOnce] at h
  | cons x u ih =>
    cases u with
    | nil => intro t h; simp [replacePairOnce] at h
    | cons y rest =>
      intro t h
      rw [replacePairOnce] at h
      split at h
      · next hxy =>
        cases h
        simp [hxy.1]
      · rcases Option.map_eq_some'.1 h with ⟨t', -, rfl⟩
        rfl

theorem replacePairOnce_mem (c : Char) :
    ∀ {s t : List Char}, replacePairOnce c s = some t →
      ∀ x ∈ t, x ∈ s := by
  intro s
  induction s with
  | nil => intro t h; simp [replacePairOnce] at h
  | cons x u ih =>
    cases u with
    | nil => intro t h; simp [replacePairOnce] at h
    | cons y rest =>
      intro t h
      rw [replacePairOnce] at h
      split at h
      · next hxy =>
        cases h
        intro z hz
        rcases List.mem_cons.1 hz with hz | hz
        · exact hz ▸ (by simp [hxy.1])
        · simp [hz]
      · rcases Option.map_eq_some'.1 h with ⟨t', ht', rfl⟩
        intro z hz
        rcases List.mem_cons.1 hz with hz | hz
        · simp [hz]
        · rcases List.mem_cons.1 (ih ht' z hz) with h1 | h1
          · simp [h1]
          · simp [List.mem_cons_of_mem, h1]

theorem replacePairOnce_length (c : Char) :
    ∀ {s t : List Char}, replacePairOnce c s = some t →
      t.length + 1 = s.length := by
  intro s
  induction s with
  | nil => intro t h; simp [replacePairOnce] at h
  | cons x u ih =>
    cases u with
    | nil => intro t h; simp [replacePairOnce] at h
    | cons y rest =>
      intro t h
      rw [replacePairOnce] at h
      split at h
      · cases h; simp
      · rcases Option.map_eq_some'.1 h with ⟨t', ht', rfl⟩
        have := ih ht'
        simp only [List.length_cons] at *
        omega

theorem replacePairOnce_pairs (c : Char) :
    ∀ {s t : List Char}, replacePairOnce c s = some t →
      ∀ {a b : Char}, [a, b] <:+: t → [a, b] <:+: s := by
  intro s
  induction s with
  | nil => intro t h; simp [replacePairOnce] at h
  | cons x u ih =>
    cases u with
    | nil => intro t h; simp [replacePairOnce] at h
    | cons y rest =>
      intro t h a b
      rw [replacePairOnce] at h
      split at h
      · next hxy =>
        cases h
        intro hi
        have hsuf : (c :: rest) <:+ (x :: y :: rest) := by
          rw [hxy.2]
          exact List.suffix_cons x (c :: rest)
        exact hi.trans hsuf.isInfix
      · next hxy =>
        rcases Option.map_eq_some'.1 h with ⟨t', ht', rfl⟩
        intro hi
        rcases List.infix_cons_iff.1 hi with hp | hp
        · rcases List.cons_prefix_cons.1 hp with ⟨rfl, hp2⟩
          have hb : t'.head? = some b := by
            rcases hp2 with ⟨w, hw⟩
            cases t' with
            | nil => simp at hw
            | cons tb tw => cases hw; rfl
          rw [replacePairOnce_head c ht'] at hb
          cases hb
          exact ⟨[], rest, by simp⟩
        · exact ((ih ht' hp).trans (List.suffix_cons x (y :: rest)).isInfix)

theorem collapseDoublesF_no_pair (c : Char) :
    ∀ (fuel : ℕ) (s : List Char), s.length ≤ fuel →
      ¬ ([c, c] <:+: collapseDoublesF c fuel s) := by
  intro fuel
  induction fuel with
  | zero =>
    intro s hs
    rw [Nat.le_zero, List.length_eq_zero] at hs
    subst hs
    intro h
    have := h.length_le
    simp [collapseDoublesF] at this
  | succ n ih =>
    intro s hs
    rw [collapseDoublesF]
    cases hrep : replacePairOnce c s with
    | some t =>
      have hlen := replacePairOnce_length c hrep
      exact ih t (by omega)
    | none => exact (replacePairOnce_none_iff c s).1 hrep

theorem collapseDoubles_no_pair (c : Char) (s : List Char) :
    ¬ ([c, c] <:+: collapseDoubles c s) :=
  collapseDoublesF_no_pair c s.length s le_rfl

theorem collapseDoublesF_mem (c : Char) :
    ∀ {fuel : ℕ} {s : List Char} {x : Char},
      x ∈ collapseDoublesF c fuel s → x ∈ s := by
  intro fuel
  induction fuel with
  | zero => intro s x h; simpa [collapseDoublesF] using h
  | succ n ih =>
    intro s x h
    rw [collapseDoublesF] at h
    cases hrep : replacePairOnce c s with
    | some t =>
      rw [hrep] at h
      exact replacePairOnce_mem c hrep x (ih h)
    | none =>
      rw [hrep] at h
      exact h

theorem collapseDoubles_mem {c x : Char} {s : List Char}
    (h : x ∈ collapseDoubles c s) : x ∈ s :=
  collapseDoublesF_mem c h

theorem collapseDoublesF_id (c : Char) {fuel : ℕ} {s : List Char}
    (h : ¬ ([c, c] <:+: s)) : collapseDoublesF c fuel s = s := by
  cases fuel with
  | zero => rfl
  | succ n =>
    rw [collapseDoublesF, (replacePairOnce_none_iff c s).2 h]

theorem collapseDoubles_id {c : Char} {s : List Char}
    (h : ¬ ([c, c] <:+: s)) : collapseDoubles c s = s :=
  collapseDoublesF_id c h

theorem collapseDoublesF_pairs (c : Char) :
    ∀ {fuel : ℕ} {s : List Char} {a b : Char},
      [a, b] <:+: collapseDoublesF c fuel s → [a, b] <:+: s := by
  intro fuel
  induction fuel with
  | zero => intro s a b h; simpa [collapseDoublesF] using h
  | succ n ih =>
    intro s a b h
    rw [collapseDoublesF] at h
    cases hrep : replacePairOnce c s with
    | some t =>
      rw [hrep] at h
      exact replacePairOnce_pairs c hrep (ih h)
    | none =>
      rw [hrep] at h
      exact h

theorem collapseDoubles_pairs {c a b : Char} {s : List Char}
    (h : [a, b] <:+: collapseDoubles c s) : [a, b] <:+: s :=
  collapseDoublesF_pairs c h

theorem collapseWsF_mem :
    ∀ {fuel : ℕ} {s : List Char} {x : Char},
      x ∈ collapseWsF fuel s → x ∈ s ∨ x = ' ' := by
  intro fuel
  induction fuel with
  | zero =>
    intro s x h
    cases s with
    | nil => simp [collapseWsF] at h
    | cons c rest => exact Or.inl (by simpa [collapseWsF] using h)
  | succ n ih =>
    intro s x h
    cases s with
    | nil => simp [collapseWsF] at h
    | cons c rest =>
      rw [collapseWsF] at h
      split at h
      · rcases List.mem_cons.1 h with h | h
        · exact Or.inr h
        · rcases ih h with h | h
          · exact Or.inl (List.mem_cons_of_mem c
              ((List.dropWhile_suffix isJsSpace).subset h))
          · exact Or.inr h
      · rcases List.mem_cons.1 h with h | h
        · exact Or.inl (h ▸ List.mem_cons_self c rest)
        · rcases ih h with h | h
          · exact Or.inl (List.mem_cons_of_mem c h)
          · exact Or.inr h

theorem collapseWsF_head_of_not_ws :
    ∀ {fuel : ℕ} {s : List Char} {x : Char}, s.head? = some x →
      isJsSpace x = false → (collapseWsF fuel s).head? = some x := by
  intro fuel hs
  cases fuel with
  | zero =>
    intro x h hx
    cases hs with
    | nil => simp at h
    | cons c rest =>
      cases h
      rfl
  | succ n =>
    intro x h hx
    cases hs with
    | nil => simp at h
    | cons c rest =>
      cases h
      rw [collapseWsF, if_neg (by simp [hx])]
      rfl

theorem collapseWsF_head_inv :
    ∀ {fuel : ℕ} {s : List Char} {x : Char},
      (collapseWsF fuel s).head? = some x → isJsSpace x = false →
      s.head? = some x := by
  intro fuel s
  cases fuel with
  | zero =>
    cases s with
    | nil => intro x h hx; simp [collapseWsF] at h
    | cons c rest => intro x h hx; simpa [collapseWsF] using h
  | succ n =>
    cases s with
    | nil => intro x h hx; simp [collapseWsF] at h
    | cons c rest =>
      intro x h hx
      rw [collapseWsF] at h
      split at h
      · next hc =>
        rw [List.head?_cons] at h
        cases h
        simp [isJsSpace] at hx
      · rw [List.head?_cons] at h
        exact h ▸ rfl

theorem dropWhile_head_not {p : Char → Bool} :
    ∀ {l : List Char} {x : Char} {v : List Char},
      l.dropWhile p = x :: v → p x = false := by
  intro l
  induction l with
  | nil => intro x v h; simp at h
  | cons c t ih =>
    intro x v h
    rw [List.dropWhile_cons] at h
    split at h
    · exact ih h
    · next hc =>
      cases h
      simpa using hc

theorem collapseWsF_ws_eq_space :
    ∀ {fuel : ℕ} {s : List Char}, s.length ≤ fuel →
      ∀ x ∈ collapseWsF fuel s, isJsSpace x → x = ' ' := by
  intro fuel
  induction fuel with
  | zero =>
    intro s hs
    rw [Nat.le_zero, List.length_eq_zero] at hs
    subst hs
    intro x h
    simp [collapseWsF] at h
  | succ n ih =>
    intro s hs x h hx
    cases s with
    | nil => simp [collapseWsF] at h
    | cons c rest =>
      simp only [List.length_cons, Nat.succ_le_succ_iff] at hs
      rw [collapseWsF] at h
      split at h
      · rcases List.mem_cons.1 h with h | h
        · exact h
        · exact ih (le_trans
            (List.dropWhile_suffix isJsSpace).length_le hs) x h hx
      · next hc =>
        rcases List.mem_cons.1 h with h | h
        · rw [h] at hx
          rw [hx] at hc
          simp at hc
        · exact ih hs x h hx

theorem collapseWsF_no_ws_pair :
    ∀ {fuel : ℕ} {s : List Char}, s.length ≤ fuel →
      ∀ {a b : Char}, [a, b] <:+: collapseWsF fuel s →
        isJsSpace a → isJsSpace b → False := by
  intro fuel
  induction fuel with
  | zero =>
    intro s hs
    rw [Nat.le_zero, List.length_eq_zero] at hs
    subst hs
    intro a b h
    have := h.length_le
    simp [collapseWsF] at this
  | succ n ih =>
    intro s hs a b h ha hb
    cases s with
    | nil =>
      have := h.length_le
      simp [collapseWsF] at this
    | cons c rest =>
      simp only [List.length_cons, Nat.succ_le_succ_iff] at hs
      rw [collapseWsF] at h
      split at h
      · next hc =>
        rcases List.infix_cons_iff.1 h with hp | hp
        · rcases List.cons_prefix_cons.1 hp with ⟨-, hp2⟩
          have hb' : (collapseWsF n (rest.dropWhile isJsSpace)).head? =
              some b := by
            rcases hp2 with ⟨w, hw⟩
            cases hcw : collapseWsF n (rest.dropWhile isJsSpace) with
            | nil => rw [hcw] at hw; simp at hw
            | cons u v =>
              rw [hcw] at hw
              cases hw
              rfl
          cases hu : rest.dropWhile isJsSpace with
          | nil =>
            rw [hu] at hb'
            simp [collapseWsF] at hb'
          | cons x v =>
            have hx : isJsSpace x = false := dropWhile_head_not hu
            rw [hu, collapseWsF_head_of_not_ws (List.head?_cons) hx] at hb'
            cases hb'
            rw [hx] at hb
            cases hb
        · exact ih (le_trans
            (List.dropWhile_suffix isJsSpace).length_le hs) hp ha hb
      · next hc =>
        rcases List.infix_cons_iff.1 h with hp | hp
        · rcases List.cons_prefix_cons.1 hp with ⟨hac, -⟩
          rw [hac] at ha
          simp [ha] at hc
        · exact ih hs hp ha hb

theorem collapseWsF_pairs :
    ∀ {fuel : ℕ} {s : List Char} {a b : Char},
      [a, b] <:+: collapseWsF fuel s → isJsSpace a = false →
      isJsSpace b = false → [a, b] <:+: s := by
  intro fuel
  induction fuel with
  | zero =>
    intro s a b h _ _
    cases s with
    | nil => simp [collapseWsF] at h
    | cons c rest => simpa [collapseWsF] using h
  | succ n ih =>
    intro s a b h ha hb
    cases s with
    | nil => simp [collapseWsF] at h
    | cons c rest =>
      rw [collapseWsF] at h
      split at h
      · next hc =>
        rcases List.infix_cons_iff.1 h with hp | hp
        · rcases List.cons_prefix_cons.1 hp with ⟨hasp, -⟩
          rw [hasp] at ha
          simp [isJsSpace] at ha
        · exact ((ih hp ha hb).trans
            ((List.dropWhile_suffix isJsSpace).trans
              (List.suffix_cons c rest)).isInfix)
      · next hc =>
        rcases List.infix_cons_iff.1 h with hp | hp
        · rcases List.cons_prefix_cons.1 hp with ⟨rfl, hp2⟩
          have hb' : (collapseWsF n rest).head? = some b := by
            rcases hp2 with ⟨w, hw⟩
            cases hcw : collapseWsF n rest with
            | nil => rw [hcw] at hw; simp at hw
            | cons u v =>
              rw [hcw] at hw
              cases hw
              rfl
          have hbr := collapseWsF_head_inv hb' hb
          cases rest with
          | nil => simp at hbr
          | cons r rv =>
            rw [List.head?_cons] at hbr
            cases hbr
            exact ⟨[], rv, by simp⟩
        · exact (ih hp ha hb).trans (List.suffix_cons c rest).isInfix

theorem collapseWsF_id :
    ∀ {fuel : ℕ} {s : List Char},
      (∀ c ∈ s, isJsSpace c → c = ' ') → ¬ ([' ', ' '] <:+: s) →
      collapseWsF fuel s = s := by
  intro fuel
  induction fuel with
  | zero =>
    intro s _ _
    cases s with
    | nil => rfl
    | cons c rest => rfl
  | succ n ih =>
    intro s hws hnp
    cases s with
    | nil => rfl
    | cons c rest =>
      rw [collapseWsF]
      split
      · next hc =>
        have hcspace : c = ' ' := hws c (List.mem_cons_self c rest) hc
        have hdrop : rest.dropWhile isJsSpace = rest := by
          cases rest with
          | nil => rfl
          | cons r rv =>
            have hr : isJsSpace r = false := by
              cases hrw : isJsSpace r with
              | false => rfl
              | true =>
                have hrspace : r = ' ' :=
                  hws r (List.mem_cons_of_mem c (List.mem_cons_self r rv))
                    hrw
                exact absurd ⟨[], rv, by simp [hcspace, hrspace]⟩ hnp
            rw [List.dropWhile_cons, hr]
            simp
        rw [hdrop, hcspace]
        rw [ih (fun x hx => hws x (List.mem_cons_of_mem c hx))
          (fun hp => hnp (hp.trans (List.suffix_cons c rest).isInfix))]
      · rw [ih (fun x hx => hws x (List.mem_cons_of_mem c hx))
          (fun hp => hnp (hp.trans (List.suffix_cons c rest).isInfix))]

theorem collapseWs_id {s : List Char}
    (hws : ∀ c ∈ s, isJsSpace c → c = ' ') (hnp : ¬ ([' ', ' '] <:+: s)) :
    collapseWs s = s :=
  collapseWsF_id hws hnp

theorem head?_dropWhile_not {p : Char → Bool} {l : List Char} {c : Char}
    (h : (l.dropWhile p).head? = some c) : p c = false := by
  cases hu : l.dropWhile p with
  | nil => rw [hu] at h; simp at h
  | cons x v =>
    rw [hu] at h
    rw [List.head?_cons] at h
    cases h
    exact dropWhile_head_not hu

theorem jsTrim_isInfix (s : List Char) : jsTrim s <:+: s := by
  have h1 : (s.dropWhile isJsSpace) <:+ s := List.dropWhile_suffix _
  have h2 : ((s.dropWhile isJsSpace).reverse.dropWhile isJsSpace) <:+
      (s.dropWhile isJsSpace).reverse := List.dropWhile_suffix _
  obtain ⟨t, ht⟩ := h2
  have : jsTrim s <+: s.dropWhile isJsSpace := by
    rw [jsTrim]
    refine ⟨t.reverse, ?_⟩
    rw [← List.reverse_append, ht, List.reverse_reverse]
  exact this.isInfix.trans h1.isInfix

theorem mem_jsTrim {s : List Char} {x : Char} (h : x ∈ jsTrim s) : x ∈ s :=
  (jsTrim_isInfix s).subset h

theorem jsTrim_length (s : List Char) : (jsTrim s).length ≤ s.length :=
  (jsTrim_isInfix s).length_le

theorem jsTrim_pairs {s : List Char} {a b : Char}
    (h : [a, b] <:+: jsTrim s) : [a, b] <:+: s :=
  h.trans (jsTrim_isInfix s)

theorem jsTrim_noEdgeWs (s : List Char) : NoEdgeWs (jsTrim s) := by
  constructor
  · intro c hc
    rw [jsTrim] at hc
    rw [List.head?_reverse] at hc
    -- `c` is the last element of `dropWhile ws (reverse (dropWhile ws s))`;
    -- that list is a non-empty suffix of `reverse (dropWhile ws s)`, whose
    -- last element is the head of `dropWhile ws s`, which is not whitespace
    have hsuf : ((s.dropWhile isJsSpace).reverse.dropWhile isJsSpace) <:+
        (s.dropWhile isJsSpace).reverse := List.dropWhile_suffix _
    obtain ⟨t, ht⟩ := hsuf
    cases hw : (s.dropWhile isJsSpace).reverse.dropWhile isJsSpace with
    | nil => rw [hw] at hc; simp at hc
    | cons x v =>
      rw [hw] at hc ht
      have h3 : ((s.dropWhile isJsSpace).reverse).getLast? = some c := by
        rw [← ht, List.getLast?_append_of_ne_nil t (by simp), hc]
      rw [List.getLast?_reverse] at h3
      exact head?_dropWhile_not h3
  · intro c hc
    rw [jsTrim] at hc
    rw [List.getLast?_reverse] at hc
    exact head?_dropWhile_not hc

theorem jsTrim_id {s : List Char} (h : NoEdgeWs s) : jsTrim s = s := by
  obtain ⟨h1, h2⟩ := h
  have hd : s.dropWhile isJsSpace = s := by
    cases s with
    | nil => rfl
    | cons c rest =>
      rw [List.dropWhile_cons, h1 c List.head?_cons]
      simp
  rw [jsTrim, hd]
  have hd2 : s.reverse.dropWhile isJsSpace = s.reverse := by
    cases hrev : s.reverse with
    | nil => rfl
    | cons c rest =>
      have : s.getLast? = some c := by
        rw [← List.head?_reverse, hrev, List.head?_cons]
      rw [List.dropWhile_cons, h2 c this]
      simp
  rw [hd2, List.reverse_reverse]

theorem singleton_infix_iff_mem {a : Char} {s : List Char} :
    [a] <:+: s ↔ a ∈ s := by
  constructor
  · intro h
    exact h.subset (List.mem_singleton_self a)
  · intro h
    rcases List.append_of_mem h with ⟨t, u, rfl⟩
    exact ⟨t, u, by simp⟩

theorem pair_infix_mem {a b : Char} {s : List Char}
    (h : [a, b] <:+: s) : a ∈ s ∧ b ∈ s :=
  ⟨h.subset (by simp), h.subset (by simp)⟩

theorem pair_infix_append_singleton {a b d : Char} {s : List Char}
    (h : [a, b] <:+: s ++ [d]) : [a, b] <:+: s ∨ b = d := by
  rcases h with ⟨t, u, hu⟩
  rcases List.eq_nil_or_concat u with rfl | ⟨u', d', rfl⟩
  · right
    have : (t ++ [a, b]).getLast? = (s ++ [d]).getLast? := by
      rw [← hu]
      simp
    rw [List.getLast?_append_of_ne_nil t (by simp),
      List.getLast?_append_of_ne_nil s (by simp)] at this
    simpa using this
  · left
    have hu' : (t ++ [a, b] ++ u') ++ [d'] = s ++ [d] := by
      rw [← hu]
      simp
    have := List.append_inj' hu' (by simp)
    exact ⟨t, u', this.1⟩

theorem mem_foldl_replaceAll {prs : List (List Char × List Char)} :
    ∀ {s : List Char} {c : Char},
      c ∈ prs.foldl (fun t kv => replaceAll kv.1 kv.2 t) s →
      c ∈ s ∨ ∃ kv ∈ prs, c ∈ kv.2 := by
  induction prs with
  | nil => intro s c h; exact Or.inl h
  | cons kv rest ih =>
    intro s c h
    rw [List.foldl_cons] at h
    rcases ih h with h | ⟨kv', h1, h2⟩
    · rcases mem_replaceAll h with h | h
      · exact Or.inl h
      · exact Or.inr ⟨kv, List.mem_cons_self kv rest, h⟩
    · exact Or.inr ⟨kv', List.mem_cons_of_mem kv h1, h2⟩

theorem foldl_replaceAll_id {prs : List (List Char × List Char)}
    {s : List Char} (h : ∀ kv ∈ prs, replaceAll kv.1 kv.2 s = s) :
    prs.foldl (fun t kv => replaceAll kv.1 kv.2 t) s = s := by
  induction prs with
  | nil => rfl
  | cons kv rest ih =>
    rw [List.foldl_cons, h kv (List.mem_cons_self kv rest)]
    exact ih fun p hp => h p (List.mem_cons_of_mem kv hp)

theorem replaceAllF_single_removes {k : Char} {r : List Char}
    (hk : k ∉ r) :
    ∀ {fuel : ℕ} {s : List Char}, s.length ≤ fuel →
      k ∉ replaceAllF [k] r fuel s := by
  intro fuel
  induction fuel with
  | zero =>
    intro s hs
    rw [Nat.le_zero, List.length_eq_zero] at hs
    subst hs
    simp [replaceAllF]
  | succ n ih =>
    intro s hs
    cases s with
    | nil => simp [replaceAllF]
    | cons a t =>
      simp only [List.length_cons, Nat.succ_le_succ_iff] at hs
      rw [replaceAllF]
      split
      · next hcond =>
        intro hmem
        rcases List.mem_append.1 hmem with h | h
        · exact hk h
        · exact ih (by simpa using hs) h
      · next hcond =>
        intro hmem
        rcases List.mem_cons.1 hmem with h | h
        · exact hcond ⟨by simp, by simp [List.isPrefixOf, h.symm]⟩
        · exact ih hs h

/-! ## Character-safety of normalizer output -/

theorem ppEmoji_safe {s : List Char} :
    ∀ x ∈ ppEmoji s, isEmojiChar x = false := by
  intro x hx
  have := List.of_mem_filter hx
  simpa using this

theorem ppReplace_safe {s : List Char}
    (h : ∀ x ∈ s, isEmojiChar x = false) :
    ∀ x ∈ ppReplace s,
      isEmojiChar x = false ∧ ∀ kv ∈ charReplacements, kv.1 ≠ x := by
  intro x hx
  rw [ppReplace, charPairs_foldl_eq_map] at hx
  rcases List.mem_map.1 hx with ⟨c0, hc0, rfl⟩
  refine ⟨?_, ?_⟩
  · rcases charSubst_eq_or_mem charReplacements c0 with he | he
    · rw [he]
      exact h c0 hc0
    · have hv : ∀ v ∈ charReplacements.map Prod.snd, isEmojiChar v = false :=
        by decide
      exact hv _ he
  · intro kv hkv heq
    have hnk := charSubst_not_key charReplacements (by decide) c0
    exact hnk (heq ▸ List.mem_map_of_mem Prod.fst hkv)

theorem ppCombining_mem {s : List Char} {x : Char}
    (hx : x ∈ ppCombining s) : x ∈ s :=
  List.mem_of_mem_filter hx

theorem ppCombining_safe {s : List Char} :
    ∀ x ∈ ppCombining s, isCombiningMark x = false := by
  intro x hx
  have := List.of_mem_filter hx
  simpa using this

theorem ppDecorative_mem {s : List Char} {x : Char}
    (hx : x ∈ ppDecorative s) : x ∈ s :=
  List.mem_of_mem_filter hx

theorem ppDecorative_safe {s : List Char} :
    ∀ x ∈ ppDecorative s, isDecorativeChar x = false := by
  intro x hx
  have := List.of_mem_filter hx
  simpa using this

theorem stage5_safe {s : List Char} (h : ∀ x ∈ s, isEmojiChar x = false) :
    ∀ x ∈ ppDecorative (ppCombining (ppReplace s)), SafeBase x := by
  intro x hx
  have h4 := ppDecorative_mem hx
  have h3 := ppCombining_mem h4
  have hr := ppReplace_safe h x h3
  exact ⟨hr.1, hr.2, ppCombining_safe x h4, ppDecorative_safe x hx⟩

theorem ppExpr_safe {s : List Char} (h : ∀ x ∈ s, SafeBase x) :
    ∀ x ∈ ppExpr s, SafeOut x := by
  have hexp : ppExpr s =
      replaceAll ['i', '.', 'e', '.', ',']
        ['t', 'h', 'a', 't', ' ', 'i', 's', ',', ' ']
        (replaceAll ['e', '.', 'g', '.', ',']
          ['f', 'o', 'r', ' ', 'e', 'x', 'a', 'm', 'p', 'l', 'e', ',', ' ']
          (replaceAll ['@'] [' ', 'a', 't', ' '] s)) := rfl
  have hat : ∀ x ∈ replaceAll ['@'] [' ', 'a', 't', ' '] s, SafeOut x := by
    intro x hx
    constructor
    · rcases mem_replaceAll hx with hm | hm
      · exact h x hm
      · have hv : ∀ v ∈ [' ', 'a', 't', ' '], SafeBase v := by decide
        exact hv _ hm
    · intro heq
      subst heq
      exact replaceAllF_single_removes (by decide) le_rfl hx
  intro x hx
  rw [hexp] at hx
  rcases mem_replaceAll hx with hm | hm
  · rcases mem_replaceAll hm with hm2 | hm2
    · exact hat x hm2
    · have hv : ∀ v ∈ ['f', 'o', 'r', ' ', 'e', 'x', 'a', 'm', 'p', 'l',
          'e', ',', ' '], SafeOut v := by decide
      exact hv _ hm2
  · have hv : ∀ v ∈ ['t', 'h', 'a', 't', ' ', 'i', 's', ',', ' '],
        SafeOut v := by decide
    exact hv _ hm

theorem ppSpacePunct_safe {s : List Char} (h : ∀ x ∈ s, SafeOut x) :
    ∀ x ∈ ppSpacePunct s, SafeOut x := by
  intro x hx
  rcases mem_foldl_replaceAll hx with hm | ⟨kv, hkv, hm⟩
  · exact h x hm
  · have hv : ∀ kv ∈ spacePunctPairs, ∀ v ∈ kv.2, SafeOut v := by decide
    exact hv kv hkv x hm

theorem ppQuotes_mem {s : List Char} {x : Char}
    (hx : x ∈ ppQuotes s) : x ∈ s :=
  collapseDoubles_mem (collapseDoubles_mem (collapseDoubles_mem hx))

theorem ppWhitespace_mem {s : List Char} {x : Char}
    (hx : x ∈ ppWhitespace s) : x ∈ s ∨ x = ' ' :=
  collapseWsF_mem (mem_jsTrim hx)

theorem ppTerminal_mem {s : List Char} {x : Char}
    (hx : x ∈ ppTerminal s) : x ∈ s ∨ x = '.' := by
  rw [ppTerminal] at hx
  split at hx
  · exact Or.inl hx
  · rcases List.mem_append.1 hx with h | h
    · exact Or.inl h
    · exact Or.inr (List.mem_singleton.1 h)

theorem preprocess_safe (nfkd : List Char → List Char) (text : List Char) :
    ∀ c ∈ preprocessText nfkd text, SafeOut c := by
  intro c hc
  rw [preprocessText] at hc
  rcases ppTerminal_mem hc with h9 | rfl
  · rcases ppWhitespace_mem h9 with h8 | rfl
    · have h7 := ppQuotes_mem h8
      exact ppSpacePunct_safe (ppExpr_safe (stage5_safe ppEmoji_safe)) c h7
    · decide
  · decide

/-! ## Structural facts about normalizer output -/

theorem ppQuotes_no_pair {s : List Char} {q : Char}
    (hq : q = quoteChar ∨ q = apostrophe ∨ q = graveAccent) :
    ¬ ([q, q] <:+: ppQuotes s) := by
  intro h
  rw [ppQuotes] at h
  rcases hq with rfl | rfl | rfl
  · exact collapseDoubles_no_pair quoteChar _
      (collapseDoubles_pairs (collapseDoubles_pairs h))
  · exact collapseDoubles_no_pair apostrophe _ (collapseDoubles_pairs h)
  · exact collapseDoubles_no_pair graveAccent _ h

theorem preprocess_no_pair (nfkd : List Char → List Char)
    (text : List Char) {q : Char}
    (hq : q = quoteChar ∨ q = apostrophe ∨ q = graveAccent) :
    ¬ ([q, q] <:+: preprocessText nfkd text) := by
  intro h
  rw [preprocessText, ppTerminal] at h
  have hqdot : q ≠ '.' := by
    rcases hq with rfl | rfl | rfl <;> decide
  have hqws : isJsSpace q = false := by
    rcases hq with rfl | rfl | rfl <;> decide
  have h9 : [q, q] <:+:
      ppWhitespace (ppQuotes (ppSpacePunct (ppExpr (ppDecorative
        (ppCombining (ppReplace (ppEmoji (nfkd text)))))))) := by
    split at h
    · exact h
    · rcases pair_infix_append_singleton h with h | h
      · exact h
      · exact absurd h hqdot
  rw [ppWhitespace] at h9
  exact ppQuotes_no_pair hq (collapseWsF_pairs (jsTrim_pairs h9) hqws hqws)

theorem preprocess_innerWsOk (nfkd : List Char → List Char)
    (text : List Char) : InnerWsOk (preprocessText nfkd text) := by
  constructor
  · intro c hc hcw
    rw [preprocessText] at hc
    rcases ppTerminal_mem hc with h9 | rfl
    · rw [ppWhitespace] at h9
      exact collapseWsF_ws_eq_space le_rfl c (mem_jsTrim h9) hcw
    · simp [isJsSpace] at hcw
  · intro h
    rw [preprocessText, ppTerminal] at h
    have h9 : [' ', ' '] <:+:
        ppWhitespace (ppQuotes (ppSpacePunct (ppExpr (ppDecorative
          (ppCombining (ppReplace (ppEmoji (nfkd text)))))))) := by
      split at h
      · exact h
      · rcases pair_infix_append_singleton h with h | h
        · exact h
        · simp at h
    rw [ppWhitespace] at h9
    exact collapseWsF_no_ws_pair le_rfl (jsTrim_pairs h9)
      (by decide) (by decide)

theorem preprocess_noEdgeWs (nfkd : List Char → List Char)
    (text : List Char) : NoEdgeWs (preprocessText nfkd text) := by
  rw [preprocessText, ppTerminal]
  have h9 := jsTrim_noEdgeWs (collapseWs (ppQuotes (ppSpacePunct (ppExpr
    (ppDecorative (ppCombining (ppReplace (ppEmoji (nfkd text)))))))))
  rw [← ppWhitespace] at h9
  split
  · exact h9
  · constructor
    · intro c hc
      cases hy : ppWhitespace (ppQuotes (ppSpacePunct (ppExpr (ppDecorative
          (ppCombining (ppReplace (ppEmoji (nfkd text)))))))) with
      | nil =>
        rw [hy] at hc
        simp at hc
        rw [← hc]
        decide
      | cons a t =>
        rw [hy, List.head?_append_of_ne_nil _ (by simp)] at hc
        exact h9.1 c (hy ▸ hc)
    · intro c hc
      rw [List.getLast?_append_of_ne_nil _ (by simp)] at hc
      simp at hc
      rw [← hc]
      decide

theorem preprocess_endsClosing (nfkd : List Char → List Char)
    (text : List Char) :
    endsInClosing (preprocessText nfkd text) = true := by
  rw [preprocessText, ppTerminal]
  split
  · next h => exact h
  · rw [endsInClosing]
    rw [List.getLast?_append_of_ne_nil _ (by simp)]
    decide

theorem preprocess_ne_nil (nfkd : List Char → List Char)
    (text : List Char) : preprocessText nfkd text ≠ [] := by
  rw [preprocessText, ppTerminal]
  split
  · next h =>
    intro hnil
    rw [hnil] at h
    simp [endsInClosing] at h
  · simp

/-- Re-running the normalizer fixes its own output, provided the output
contains none of the expression-substitution patterns and no space
directly before stripped punctuation, and NFKD fixes the output. -/
theorem preprocess_fixed (nfkd : List Char → List Char) (s : List Char)
    (h0 : nfkd (preprocessText nfkd s) = preprocessText nfkd s)
    (hA1 : ¬ (['e', '.', 'g', '.', ','] <:+: preprocessText nfkd s))
    (hA2 : ¬ (['i', '.', 'e', '.', ','] <:+: preprocessText nfkd s))
    (hB : ∀ kv ∈ spacePunctPairs, ¬ (kv.1 <:+: preprocessText nfkd s)) :
    preprocessText nfkd (preprocessText nfkd s) = preprocessText nfkd s := by
  have hsafe := preprocess_safe nfkd s
  have hinner := preprocess_innerWsOk nfkd s
  have hedge := preprocess_noEdgeWs nfkd s
  have hends := preprocess_endsClosing nfkd s
  have hnp := fun (q : Char) hq => @preprocess_no_pair nfkd s q hq
  set y := preprocessText nfkd s with hy
  have e2 : ppEmoji y = y :=
    List.filter_eq_self.mpr fun c hc => by simp [(hsafe c hc).1.1]
  have e3 : ppReplace y = y := by
    rw [ppReplace, charPairs_foldl_eq_map]
    have hid : ∀ c ∈ y, charSubst charReplacements c = c := fun c hc =>
      charSubst_id fun kv hkv => ((hsafe c hc).1.2.1 kv hkv).symm
    rw [List.map_congr_left hid]
    exact List.map_id' y
  have e4 : ppCombining y = y :=
    List.filter_eq_self.mpr fun c hc => by simp [(hsafe c hc).1.2.2.1]
  have e5 : ppDecorative y = y :=
    List.filter_eq_self.mpr fun c hc => by simp [(hsafe c hc).1.2.2.2]
  have e6 : ppExpr y = y := by
    have hat : ¬ (['@'] <:+: y) := by
      rw [singleton_infix_iff_mem]
      intro hmem
      exact (hsafe _ hmem).2 rfl
    rw [ppExpr, exprReplacements, List.foldl_cons, List.foldl_cons,
      List.foldl_cons, List.foldl_nil, replaceAll_no_match hat,
      replaceAll_no_match hA1, replaceAll_no_match hA2]
  have e7 : ppSpacePunct y = y :=
    foldl_replaceAll_id fun kv hkv => replaceAll_no_match (hB kv hkv)
  have e8 : ppQuotes y = y := by
    rw [ppQuotes, collapseDoubles_id (hnp quoteChar (Or.inl rfl)),
      collapseDoubles_id (hnp apostrophe (Or.inr (Or.inl rfl))),
      collapseDoubles_id (hnp graveAccent (Or.inr (Or.inr rfl)))]
  have e9 : ppWhitespace y = y := by
    rw [ppWhitespace, collapseWs_id hinner.1 hinner.2, jsTrim_id hedge]
  have e10 : ppTerminal y = y := by
    rw [ppTerminal, if_pos hends]
  rw [preprocessText, h0, e2, e3, e4, e5, e6, e7, e8, e9, e10]

/-! ## Claim C6 -/

/-- C6: for every input string, `preprocessText` returns a non-empty
string whose final character belongs to the fixed closing-punctuation set
(the characters of the terminal regex), appending `'.'` when the result
would otherwise not end in one. -/
theorem C6_normalizer_output_terminal (nfkd : List Char → List Char)
    (text : List Char) :
    preprocessText nfkd text ≠ [] ∧
    ∃ c, (preprocessText nfkd text).getLast? = some c ∧ c ∈ closingSet := by
  refine ⟨preprocess_ne_nil nfkd text, ?_⟩
  have h := preprocess_endsClosing nfkd text
  rw [endsInClosing] at h
  cases hg : (preprocessText nfkd text).getLast? with
  | none => rw [hg] at h; simp at h
  | some c =>
    rw [hg] at h
    exact ⟨c, rfl, by simpa using h⟩

/-! ## Claim C5 -/

/-- C5 (counterexample): normalization is not idempotent.  On the ASCII
input `"e.g .,"` one pass yields `"e.g.,"` (the space before `'.'` is
stripped after the expression substitutions have already run), and a
second pass then rewrites it to `"for example,"`. -/
theorem C5_counterexample :
    preprocessText nfkdModel (preprocessText nfkdModel "e.g .,".toList) ≠
      preprocessText nfkdModel "e.g .,".toList ∧
    preprocessText nfkdModel "e.g .,".toList = "e.g.,".toList ∧
    preprocessText nfkdModel (preprocessText nfkdModel "e.g .,".toList) =
      "for example,".toList := by decide

/-- C5 (amended): normalization is idempotent on every input whose
normalized output contains no occurrence of the expression-substitution
patterns `"e.g.,"` / `"i.e.,"` and no space directly before one of
`, . ! ? ; : '`, provided NFKD fixes the (already NFKD-normalized)
output. -/
theorem C5_preprocess_idempotent_amended (nfkd : List Char → List Char)
    (s : List Char)
    (h0 : nfkd (preprocessText nfkd s) = preprocessText nfkd s)
    (hA1 : ¬ (['e', '.', 'g', '.', ','] <:+: preprocessText nfkd s))
    (hA2 : ¬ (['i', '.', 'e', '.', ','] <:+: preprocessText nfkd s))
    (hB : ∀ kv ∈ spacePunctPairs, ¬ (kv.1 <:+: preprocessText nfkd s)) :
    preprocessText nfkd (preprocessText nfkd s) = preprocessText nfkd s :=
  preprocess_fixed nfkd s h0 hA1 hA2 hB

/-- Witness for the amended C5 at the concrete input `"Hi."`. -/
theorem C5_preprocess_idempotent_amended_witness :
    (nfkdModel (preprocessText nfkdModel "Hi.".toList) =
      preprocessText nfkdModel "Hi.".toList) ∧
    (¬ (['e', '.', 'g', '.', ','] <:+:
      preprocessText nfkdModel "Hi.".toList)) ∧
    (¬ (['i', '.', 'e', '.', ','] <:+:
      preprocessText nfkdModel "Hi.".toList)) ∧
    (∀ kv ∈ spacePunctPairs,
      ¬ (kv.1 <:+: preprocessText nfkdModel "Hi.".toList)) ∧
    preprocessText nfkdModel (preprocessText nfkdModel "Hi.".toList) =
      preprocessText nfkdModel "Hi.".toList :=
  ⟨by decide, by decide, by decide, by decide,
    C5_preprocess_idempotent_amended nfkdModel "Hi.".toList (by decide)
      (by decide) (by decide) (by decide)⟩

/-! ## Chunker lemmas -/

theorem goodChunk_of_cur {sents : List (List Char)} {maxLen : ℕ}
    {cur : List Char} (hcur : cur = [] ∨ cur.length ≤ maxLen ∨ cur ∈ sents) :
    GoodChunk sents maxLen (jsTrim cur) := by
  rcases hcur with rfl | h | h
  · exact Or.inl (by simp [jsTrim])
  · exact Or.inl (le_trans (jsTrim_length cur) h)
  · by_cases hlen : (jsTrim cur).length ≤ maxLen
    · exact Or.inl hlen
    · exact Or.inr ⟨cur, h, rfl, lt_of_not_le hlen⟩

theorem chunkAccum_inv {sents : List (List Char)} {maxLen : ℕ}
    {st : List (List Char) × List Char} {sentence : List Char}
    (hinv : AccumInv sents maxLen st) (hs : sentence ∈ sents) :
    AccumInv sents maxLen (chunkAccum maxLen st sentence) := by
  obtain ⟨chunks, cur⟩ := st
  obtain ⟨hchunks, hcur⟩ := hinv
  simp only [chunkAccum]
  split
  · next hcond =>
    refine ⟨hchunks, Or.inr (Or.inl ?_)⟩
    by_cases hemp : cur.isEmpty
    · rw [List.isEmpty_iff] at hemp
      subst hemp
      simp only [List.isEmpty_nil, if_pos]
      simp only [List.length_nil, List.length_append] at hcond ⊢
      omega
    · rw [if_neg hemp]
      simp only [List.length_append, List.length_cons, List.length_nil]
        at hcond ⊢
      omega
  · next hcond =>
    constructor
    · intro c hc
      by_cases hemp : cur.isEmpty
      · rw [if_pos hemp] at hc
        exact hchunks c (by simpa using hc)
      · rw [if_neg hemp] at hc
        rcases List.mem_append.1 hc with h | h
        · exact hchunks c h
        · rw [List.mem_singleton.1 h]
          exact goodChunk_of_cur hcur
    · exact Or.inr (Or.inr hs)

theorem chunkAccum_foldl_inv {sents : List (List Char)} {maxLen : ℕ} :
    ∀ {l : List (List Char)} {st : List (List Char) × List Char},
      (∀ x ∈ l, x ∈ sents) → AccumInv sents maxLen st →
      AccumInv sents maxLen (l.foldl (chunkAccum maxLen) st) := by
  intro l
  induction l with
  | nil => intro st _ h; exact h
  | cons x rest ih =>
    intro st hl hinv
    rw [List.foldl_cons]
    exact ih (fun z hz => hl z (List.mem_cons_of_mem x hz))
      (chunkAccum_inv hinv (hl x (List.mem_cons_self x rest)))

theorem chunkParagraph_good {maxLen : ℕ} {p : List Char} :
    ∀ c ∈ chunkParagraph maxLen p,
      GoodChunk (splitSentences p) maxLen c := by
  intro c hc
  rw [chunkParagraph] at hc
  have hinv := @chunkAccum_foldl_inv (splitSentences p) maxLen
    (splitSentences p) ([], []) (fun x hx => hx)
    ⟨fun z hz => by simp at hz, Or.inl rfl⟩
  rcases List.mem_append.1 hc with h | h
  · exact hinv.1 c h
  · split at h
    · simp at h
    · rw [List.mem_singleton.1 h]
      exact goodChunk_of_cur hinv.2

theorem mem_chunkText {text : List Char} {maxLen : ℕ} {c : List Char}
    (hc : c ∈ chunkText text maxLen) :
    ∃ p0 ∈ (splitParagraphs (jsTrim text)).filter
        (fun p => !(jsTrim p).isEmpty),
      c ∈ chunkParagraph maxLen (jsTrim p0) := by
  rw [chunkText] at hc
  suffices h : ∀ (l : List (List Char)) (acc : List (List Char)),
      c ∈ l.foldl (fun chunks p0 =>
        let p := jsTrim p0
        if p.isEmpty then chunks else chunks ++ chunkParagraph maxLen p)
        acc →
      c ∈ acc ∨ ∃ p0 ∈ l, c ∈ chunkParagraph maxLen (jsTrim p0) by
    rcases h _ [] hc with h | ⟨p0, h1, h2⟩
    · simp at h
    · exact ⟨p0, h1, h2⟩
  intro l
  induction l with
  | nil => intro acc h; exact Or.inl h
  | cons x rest ih =>
    intro acc h
    rw [List.foldl_cons] at h
    rcases ih _ h with h | ⟨p0, h1, h2⟩
    · dsimp only at h
      split at h
      · exact Or.inl h
      · rcases List.mem_append.1 h with h | h
        · exact Or.inl h
        · exact Or.inr ⟨x, List.mem_cons_self x rest, h⟩
    · exact Or.inr ⟨p0, List.mem_cons_of_mem x h1, h2⟩

/-! ## Claim C4 -/

/-- C4: every chunk returned by `chunkText` has length at most the limit,
except a chunk that is a single (trimmed) sentence from the sentence split
of its paragraph whose own length exceeds the limit, which stands alone
and is never truncated mid-sentence. -/
theorem C4_chunk_length_bound (text : List Char) (maxLen : ℕ)
    (c : List Char) (hc : c ∈ chunkText text maxLen) :
    c.length ≤ maxLen ∨
    ∃ p ∈ splitParagraphs (jsTrim text),
      ∃ st ∈ splitSentences (jsTrim p),
        c = jsTrim st ∧ maxLen < c.length := by
  rcases mem_chunkText hc with ⟨p0, hp0, hcp⟩
  rcases chunkParagraph_good c hcp with h | ⟨st, hst, hceq, hlen⟩
  · exact Or.inl h
  · exact Or.inr ⟨p0, (List.mem_filter.1 hp0).1, st, hst, hceq, hlen⟩

/-- Witness for C4 at a concrete input: chunking two short sentences with
the default limit. -/
theorem C4_chunk_length_bound_witness :
    ("Hello there. How are you?".toList ∈
      chunkText "Hello there. How are you?".toList 300) ∧
    ("Hello there. How are you?".toList.length ≤ 300 ∨
    ∃ p ∈ splitParagraphs (jsTrim "Hello there. How are you?".toList),
      ∃ st ∈ splitSentences (jsTrim p),
        "Hello there. How are you?".toList = jsTrim st ∧
        300 < "Hello there. How are you?".toList.length) :=
  ⟨by decide, C4_chunk_length_bound _ 300 _ (by decide)⟩

/-! ## Orchestrator concatenation lemmas -/

theorem ttsStep_foldl (eng : Engine) (nfkd : List Char → List Char)
    (cfg : TtsConfig) (indexer : List ℤ) (style : Style) (N : ℕ)
    (speed sil : ℚ) :
    ∀ (l : List (List Char)) (w : List ℚ) (d : ℚ)
      (e : List BackendEvent), w ≠ [] →
      l.foldl (ttsStep eng nfkd cfg indexer style N speed sil) (w, d, e) =
      (w ++ l.flatMap (fun c =>
          List.replicate (⌊sil * (cfg.sample_rate : ℚ)⌋).toNat 0 ++
          (inferRun eng nfkd cfg indexer [c] style N speed).wav),
       d + (l.map (fun c =>
          (inferRun eng nfkd cfg indexer [c] style N speed).duration.headI
            + sil)).sum,
       e ++ l.flatMap (fun c =>
          (inferRun eng nfkd cfg indexer [c] style N speed).events)) := by
  intro l
  induction l with
  | nil =>
    intro w d e _
    simp
  | cons c rest ih =>
    intro w d e hw
    rw [List.foldl_cons, ttsStep]
    rw [if_neg (by simpa [List.isEmpty_iff] using hw)]
    rw [ih _ _ _ (by simp [hw])]
    simp only [List.flatMap_cons, List.map_cons, List.sum_cons]
    refine congrArg₂ Prod.mk ?_ (congrArg₂ Prod.mk ?_ ?_)
    · simp [List.append_assoc]
    · ring
    · simp [List.append_assoc]

/-! ## Claim C9 -/

/-- C9: a style whose batch dimension (the leading dim of its `ttl`
tensor) is not 1 makes `TextToSpeech.call` throw before any inference
call: the result is the error and the backend-event log is empty.
Synthesis proceeds only when the batch dimension is 1 (the guard is the
first statement of `call`). -/
theorem C9_style_batch_guard (eng : Engine) (nfkd : List Char → List Char)
    (cfg : TtsConfig) (indexer : List ℤ) (text : List Char) (style : Style)
    (N : ℕ) (speed sil : ℚ) (h : style.ttl.dims.getD 0 0 ≠ 1) :
    ttsCall eng nfkd cfg indexer text style N speed sil =
      (.error "Single speaker text to speech only supports single style",
       []) := by
  rw [ttsCall, if_pos h]

/-- Witness for C9: a style with batch dimension 2 on concrete input. -/
theorem C9_style_batch_guard_witness :
    wStyleBad.ttl.dims.getD 0 0 ≠ 1 ∧
    ttsCall wEngine nfkdModel wCfg [] "Hi.".toList wStyleBad 1 1 (3/10) =
      (.error "Single speaker text to speech only supports single style",
       []) :=
  ⟨by decide,
   C9_style_batch_guard wEngine nfkdModel wCfg [] "Hi.".toList wStyleBad
     1 1 (3/10) (by decide)⟩

/-! ## Claim C10 -/

theorem chunkText_ws_only {text : List Char}
    (hws : ∀ c ∈ text, isJsSpace c = true) (maxLen : ℕ) :
    chunkText text maxLen = [] := by
  have htrim : jsTrim text = [] := by
    rw [jsTrim]
    have : text.dropWhile isJsSpace = [] :=
      List.dropWhile_eq_nil_iff.2 fun c hc => hws c hc
    rw [this]
    rfl
  rw [chunkText, htrim]
  rfl

/-- C10: on empty or whitespace-only input, `chunkText` returns no chunks
and `TextToSpeech.call` (with a valid style) returns an empty waveform
with total duration 0, invoking none of the four backend models. -/
theorem C10_empty_input (eng : Engine) (nfkd : List Char → List Char)
    (cfg : TtsConfig) (indexer : List ℤ) (text : List Char) (style : Style)
    (N : ℕ) (speed sil : ℚ)
    (hws : ∀ c ∈ text, isJsSpace c = true)
    (hstyle : style.ttl.dims.getD 0 0 = 1) :
    chunkText text = [] ∧
    ttsCall eng nfkd cfg indexer text style N speed sil =
      (.ok ([], [0]), []) := by
  refine ⟨chunkText_ws_only hws 300, ?_⟩
  rw [ttsCall, if_neg (not_not_intro hstyle), chunkText_ws_only hws 300]
  rfl

/-- Witness for C10 at the concrete whitespace input `" \n "`. -/
theorem C10_empty_input_witness :
    (∀ c ∈ " \n ".toList, isJsSpace c = true) ∧
    wStyle.ttl.dims.getD 0 0 = 1 ∧
    (chunkText " \n ".toList = [] ∧
     ttsCall wEngine nfkdModel wCfg [] " \n ".toList wStyle 1 1 (3/10) =
       (.ok ([], [0]), [])) :=
  ⟨by decide, by decide,
   C10_empty_input wEngine nfkdModel wCfg [] " \n ".toList wStyle 1 1
     (3/10) (by decide) (by decide)⟩

/-! ## Claim C1 -/

/-- C1 (amended): with a valid style, a non-empty chunk list whose first
chunk synthesizes a non-empty waveform, and a non-negative silence
length, every chunk after the first is preceded by exactly
`floor(silenceDuration × sampleRate)` zero samples (the code uses
`Math.floor`, not `Math.round`), and the returned total duration is the
first chunk's duration plus, for every later chunk, that chunk's duration
plus `silenceDuration`. -/
theorem C1_silence_concatenation_amended (eng : Engine)
    (nfkd : List Char → List Char) (cfg : TtsConfig) (indexer : List ℤ)
    (text : List Char) (style : Style) (N : ℕ) (speed sil : ℚ)
    (hstyle : style.ttl.dims.getD 0 0 = 1) (c0 : List Char)
    (rest : List (List Char)) (hchunks : chunkText text = c0 :: rest)
    (hw0 : (inferRun eng nfkd cfg indexer [c0] style N speed).wav ≠ []) :
    (ttsCall eng nfkd cfg indexer text style N speed sil).1 =
      .ok ((inferRun eng nfkd cfg indexer [c0] style N speed).wav ++
          rest.flatMap (fun c =>
            List.replicate (⌊sil * (cfg.sample_rate : ℚ)⌋).toNat 0 ++
            (inferRun eng nfkd cfg indexer [c] style N speed).wav),
        [(inferRun eng nfkd cfg indexer [c0] style N speed).duration.headI
          + (rest.map (fun c =>
              (inferRun eng nfkd cfg indexer [c] style N
                speed).duration.headI + sil)).sum]) := by
  rw [ttsCall, if_neg (not_not_intro hstyle), hchunks, List.foldl_cons,
    ttsStep, if_pos (by simp),
    ttsStep_foldl eng nfkd cfg indexer style N speed sil rest _ _ _ hw0]

/-- C1 (counterexample): with `silenceDuration = 0.25` and
`sampleRate = 10`, two one-sample chunks give a four-sample waveform —
`floor(2.5) = 2` inserted zeros — while the claim's
`round(silenceDuration × sampleRate) = 3` predicts five samples. -/
theorem C1_counterexample :
    (ttsCall wEngine nfkdModel wCfg [] "A.\n\nB.".toList wStyle 0 1
        (1/4)).1.toOption = some ([0, 0, 0, 0], [9/4]) ∧
    ([(0 : ℚ), 0, 0, 0].length ≠
      1 + (jsRound ((1/4 : ℚ) * (wCfg.sample_rate : ℚ))).toNat + 1) := by
  constructor
  · decide
  · decide

/-- Witness for the amended C1 on a concrete two-chunk input. -/
theorem C1_silence_concatenation_amended_witness :
    wStyle.ttl.dims.getD 0 0 = 1 ∧
    chunkText "A.\n\nB.".toList = ["A.".toList, "B.".toList] ∧
    (inferRun wEngine nfkdModel wCfg [] ["A.".toList] wStyle 0 1).wav ≠ [] ∧
    (ttsCall wEngine nfkdModel wCfg [] "A.\n\nB.".toList wStyle 0 1
        (1/4)).1 =
      .ok ((inferRun wEngine nfkdModel wCfg [] ["A.".toList] wStyle 0
            1).wav ++
          ["B.".toList].flatMap (fun c =>
            List.replicate (⌊(1/4 : ℚ) * (wCfg.sample_rate : ℚ)⌋).toNat 0
              ++ (inferRun wEngine nfkdModel wCfg [] [c] wStyle 0 1).wav),
        [(inferRun wEngine nfkdModel wCfg [] ["A.".toList] wStyle 0
            1).duration.headI
          + (["B.".toList].map (fun c =>
              (inferRun wEngine nfkdModel wCfg [] [c] wStyle 0
                1).duration.headI + (1/4 : ℚ))).sum]) :=
  ⟨by decide, by decide, by decide,
   C1_silence_concatenation_amended wEngine nfkdModel wCfg []
     "A.\n\nB.".toList wStyle 0 1 (1/4) (by decide) "A.".toList
     ["B.".toList] (by decide) (by decide)⟩

/-! ## Claim C3 -/

/-- C3 (amended): the TTS component truncates the waveform it delivers to
`floor(sampleRate × totalDuration)` samples (TTS.tsx lines 214–215), but
the voice-chat engine's slice length is
`floor(sampleRate × wav.length / sampleRate) = wav.length`
(voiceChatEngine.ts line 418), so that path delivers the full concatenated
waveform untruncated. -/
theorem C3_truncation_amended (wav : List ℚ) (dur : ℚ) (sr : ℕ)
    (h1 : (⌊(sr : ℚ) * dur⌋).toNat ≤ wav.length) (h2 : sr ≠ 0) :
    (ttsComponentWavOut wav dur sr).length = (⌊(sr : ℚ) * dur⌋).toNat ∧
    voiceChatWavOut wav sr = wav := by
  constructor
  · rw [ttsComponentWavOut, List.length_take]
    omega
  · rw [voiceChatWavOut]
    have hq : (sr : ℚ) * (wav.length : ℚ) / (sr : ℚ) = (wav.length : ℚ) :=
      mul_div_cancel_left₀ _ (by exact_mod_cast h2)
    rw [hq, Int.floor_natCast, Int.toNat_natCast, List.take_length]

/-- C3 (counterexample): a voice-chat synthesis request whose vocoder
emits 5 samples with total duration 0.3 s at 10 Hz delivers all 5
samples, not `floor(10 × 0.3) = 3`. -/
theorem C3_counterexample :
    (ttsCall wEngine5 nfkdModel wCfg [] "A.".toList wStyle 5 (21/20)
        (3/10)).1.toOption = some ([0, 0, 0, 0, 0], [3/10]) ∧
    (generateSpeechSamples wEngine5 nfkdModel wCfg [] "A.".toList
        wStyle).1.toOption = some [0, 0, 0, 0, 0] ∧
    ([(0 : ℚ), 0, 0, 0, 0].length ≠
      (⌊(wCfg.sample_rate : ℚ) * (3/10 : ℚ)⌋).toNat) :=
  ⟨by decide, by decide, by decide⟩

/-- Witness for the amended C3 on concrete data. -/
theorem C3_truncation_amended_witness :
    ((⌊(2 : ℚ) * (1/2 : ℚ)⌋).toNat ≤ [(0 : ℚ), 0, 0].length) ∧
    (2 : ℕ) ≠ 0 ∧
    ((ttsComponentWavOut [(0 : ℚ), 0, 0] (1/2) 2).length =
      (⌊(2 : ℚ) * (1/2 : ℚ)⌋).toNat ∧
     voiceChatWavOut [(0 : ℚ), 0, 0] 2 = [(0 : ℚ), 0, 0]) :=
  ⟨by decide, by decide,
   C3_truncation_amended [(0 : ℚ), 0, 0] (1/2) 2 (by decide) (by decide)⟩

/-! ## Denoising-loop lemmas -/

theorem denoiseRun_log (eng : Engine) (style : Style)
    (textEmb latentMaskFlat textMaskFlat totalStepArr : List ℚ)
    (bsz : ℕ) (xt0 : List (List (List ℚ))) :
    ∀ N : ℕ,
      (denoiseRun eng style textEmb latentMaskFlat textMaskFlat
        totalStepArr bsz N xt0).2 = List.range N := by
  intro N
  induction N with
  | zero => rfl
  | succ n ih =>
    rw [denoiseRun, List.range_succ, List.foldl_append, List.foldl_cons,
      List.foldl_nil, ← denoiseRun, ih]

theorem denoiseRun_succ (eng : Engine) (style : Style)
    (textEmb latentMaskFlat textMaskFlat totalStepArr : List ℚ)
    (bsz : ℕ) (xt0 : List (List (List ℚ))) (k : ℕ) :
    (denoiseRun eng style textEmb latentMaskFlat textMaskFlat
      totalStepArr bsz (k + 1) xt0).1 =
    denoiseStep eng style textEmb latentMaskFlat textMaskFlat
      totalStepArr bsz
      (denoiseRun eng style textEmb latentMaskFlat textMaskFlat
        totalStepArr bsz k xt0).1 k := by
  rw [denoiseRun, List.range_succ, List.foldl_append, List.foldl_cons,
    List.foldl_nil, ← denoiseRun]

/-! ## Claim C7 -/

/-- C7: for `totalStep = N > 0` the denoising loop invokes the vector
estimator exactly `N` times with `current_step` values `0, …, N−1` in
order (the event log of `_infer` records exactly those calls), and each
call's output wholly replaces the working latent: the latent after
`k + 1` steps is `denoiseStep` (one estimator call, reshaped) applied to
the latent after `k` steps, with no dependence on any earlier latent. -/
theorem C7_denoising_loop (eng : Engine) (nfkd : List Char → List Char)
    (cfg : TtsConfig) (indexer : List ℤ) (textList : List (List Char))
    (style : Style) (N : ℕ) (speed : ℚ) (_hN : 0 < N) :
    ((inferRun eng nfkd cfg indexer textList style N speed).events.filterMap
      eventStep) = List.range N ∧
    (∀ (textEmb latentMaskFlat textMaskFlat totalStepArr : List ℚ)
       (bsz : ℕ) (xt0 : List (List (List ℚ))) (k : ℕ), k < N →
      (denoiseRun eng style textEmb latentMaskFlat textMaskFlat
        totalStepArr bsz (k + 1) xt0).1 =
      denoiseStep eng style textEmb latentMaskFlat textMaskFlat
        totalStepArr bsz
        (denoiseRun eng style textEmb latentMaskFlat textMaskFlat
          totalStepArr bsz k xt0).1 k) := by
  constructor
  · rw [inferRun]
    simp only [List.filterMap_append, List.filterMap_cons,
      List.filterMap_nil, List.filterMap_map, eventStep]
    rw [denoiseRun_log,
      show (eventStep ∘ BackendEvent.vectorEstCall) = some from rfl,
      List.filterMap_some]
    simp
  · intro textEmb latentMaskFlat textMaskFlat totalStepArr bsz xt0 k _
    exact denoiseRun_succ eng style textEmb latentMaskFlat textMaskFlat
      totalStepArr bsz xt0 k

/-- Witness for C7 with `N = 2` on a concrete engine. -/
theorem C7_denoising_loop_witness :
    (0 : ℕ) < 2 ∧
    ((inferRun wEngine nfkdModel wCfg [] ["A.".toList] wStyle 2
        1).events.filterMap eventStep) = List.range 2 :=
  ⟨by decide,
   (C7_denoising_loop wEngine nfkdModel wCfg [] ["A.".toList] wStyle 2 1
     (by decide)).1⟩

/-! ## Integer ceiling-division bridge -/

theorem ediv_unique (b q r : ℤ) (hb : 0 < b) (h2 : 0 ≤ r) (h3 : r < b) :
    (b * q + r) / b = q := by
  rw [add_comm, Int.add_mul_ediv_left r q (by omega),
    Int.ediv_eq_zero_of_lt h2 h3]
  omega

theorem neg_ediv_neg (a : ℤ) (m : ℕ) (hm : 0 < m) :
    -((-a) / (m : ℤ)) = (a + m - 1) / (m : ℤ) := by
  have hm' : (0 : ℤ) < m := by exact_mod_cast hm
  obtain ⟨q, r, hd, hr0, hrm⟩ : ∃ q r : ℤ, a = m * q + r ∧ 0 ≤ r ∧ r < m :=
    ⟨a / m, a % m, (Int.ediv_add_emod a m).symm,
     Int.emod_nonneg a (by omega), Int.emod_lt_of_pos a hm'⟩
  subst hd
  by_cases hr : r = 0
  · subst hr
    have e1 : -((m : ℤ) * q + 0) = (m : ℤ) * (-q) + 0 := by ring
    have e2 : ((m : ℤ) * q + 0 + m - 1) = m * q + (m - 1) := by ring
    rw [e1, ediv_unique m (-q) 0 hm' le_rfl hm', e2,
      ediv_unique m q (m - 1) hm' (by omega) (by omega)]
    ring
  · have e1 : -((m : ℤ) * q + r) = (m : ℤ) * (-q - 1) + (m - r) := by ring
    have e2 : ((m : ℤ) * q + r + m - 1) = m * (q + 1) + (r - 1) := by ring
    rw [e1, ediv_unique m (-q - 1) (m - r) hm' (by omega) (by omega), e2,
      ediv_unique m (q + 1) (r - 1) hm' (by omega) (by omega)]
    ring

theorem ceil_div_eq_ediv (a : ℤ) (m : ℕ) (hm : 0 < m) :
    (⌈(a : ℚ) / (m : ℚ)⌉ : ℤ) = (a + m - 1) / (m : ℤ) := by
  have h1 : ((a : ℚ)) / (m : ℚ) = -(((-a : ℤ) : ℚ) / (m : ℚ)) := by
    push_cast
    ring
  rw [h1, Int.ceil_neg, Rat.floor_intCast_div_natCast]
  exact neg_ediv_neg a m hm

theorem le_foldl_max (l : List ℚ) : ∀ init : ℚ, init ≤ l.foldl max init := by
  induction l with
  | nil => intro init; exact le_rfl
  | cons c t ih =>
    intro init
    rw [List.foldl_cons]
    exact le_trans (le_max_left init c) (ih (max init c))

theorem mem_le_foldl_max (l : List ℚ) :
    ∀ (init : ℚ) (x : ℚ), x ∈ l → x ≤ l.foldl max init := by
  induction l with
  | nil => intro init x hx; simp at hx
  | cons c t ih =>
    intro init x hx
    rw [List.foldl_cons]
    rcases List.mem_cons.1 hx with rfl | hx
    · exact le_trans (le_max_right init x) (le_foldl_max t _)
    · exact ih _ x hx

theorem le_listMaxQ {l : List ℚ} {x : ℚ} (hx : x ∈ l) : x ≤ listMaxQ l :=
  mem_le_foldl_max l l.headI x hx

theorem lengthToMask_some (lengths : List ℤ) (maxLen : ℤ)
    (hml : maxLen ≠ 0) :
    lengthToMask lengths (some maxLen) =
      lengths.map (fun len => [(List.range maxLen.toNat).map
        (fun j : ℕ =>
          if (j : ℤ) < min len maxLen then (1 : ℚ) else 0)]) := by
  unfold lengthToMask
  dsimp only
  rw [if_neg hml]

theorem lengthToMask_entry (lengths : List ℤ) (maxLen : ℤ)
    (hml : maxLen ≠ 0) (b : ℕ) (hb : b < lengths.length) (t : ℕ)
    (ht : t < maxLen.toNat) :
    (((lengthToMask lengths (some maxLen)).getD b []).getD 0 []).getD t 0 =
      if (t : ℤ) < min (lengths.getD b 0) maxLen then (1 : ℚ) else 0 := by
  rw [lengthToMask_some lengths maxLen hml]
  rw [List.getD_eq_getElem (lengths.map _) [] (by simpa using hb)]
  rw [List.getElem_map]
  show ((List.range maxLen.toNat).map
    (fun j : ℕ => if (j : ℤ) < min (lengths[b]) maxLen then (1 : ℚ) else
      0)).getD t 0 = _
  rw [List.getD_eq_getElem _ _ (by simpa using ht)]
  rw [List.getElem_map, List.getElem_range]
  rw [List.getD_eq_getElem _ _ hb]

theorem sampleNoisyLatent_snd (noise : ℕ → ℚ) (duration : List ℚ)
    (sr bcs cc ld : ℕ) :
    (sampleNoisyLatent noise duration sr bcs cc ld).2 =
      lengthToMask ((duration.map fun d => ⌊d * (sr : ℚ)⌋).map fun len =>
        ⌊((len + (bcs * cc : ℕ) - 1 : ℤ) : ℚ) / ((bcs * cc : ℕ) : ℚ)⌋)
        (some (latentFrameLen duration sr (bcs * cc))) := rfl

theorem sampleNoisyLatent_fst (noise : ℕ → ℚ) (duration : List ℚ)
    (sr bcs cc ld : ℕ) :
    (sampleNoisyLatent noise duration sr bcs cc ld).1 =
      applyLatentMask
        ((List.range duration.length).map fun b =>
          (List.range (ld * cc)).map fun d =>
            (List.range (latentFrameLen duration sr
                (bcs * cc)).toNat).map fun t =>
              noise ((b * (ld * cc) + d) *
                (latentFrameLen duration sr (bcs * cc)).toNat + t))
        ((sampleNoisyLatent noise duration sr bcs cc ld).2) := rfl

theorem applyLatentMask_entry (xt mask : List (List (List ℚ)))
    (b dIdx t : ℕ) (hb : b < xt.length) (hd : dIdx < (xt[b]).length)
    (ht : t < (xt[b][dIdx]).length) :
    (((applyLatentMask xt mask).getD b []).getD dIdx []).getD t 0 =
      xt[b][dIdx][t] * (((mask.getD b []).getD 0 []).getD t 0) := by
  have h1 : (applyLatentMask xt mask).getD b [] =
      xt[b].map (fun row => row.mapIdx fun u v =>
        v * (((mask.getD b []).getD 0 []).getD u 0)) := by
    rw [applyLatentMask, List.getD_eq_getElem _ _ (by simpa using hb),
      List.getElem_mapIdx]
  have h2 : ((applyLatentMask xt mask).getD b []).getD dIdx [] =
      (xt[b][dIdx]).mapIdx (fun u v =>
        v * (((mask.getD b []).getD 0 []).getD u 0)) := by
    rw [h1, List.getD_eq_getElem _ _ (by simpa using hd),
      List.getElem_map]
  rw [h2, List.getD_eq_getElem _ _ (by simpa using ht),
    List.getElem_mapIdx]

/-! ## Claim C8 -/

/-- C8: in the latent returned by `sampleNoisyLatent`, every element of
batch row `b` at a time index at or beyond that row's valid length
`ceil(floor(duration_b × sampleRate) / (baseChunkSize × chunkCompress))`
is exactly 0, and the mask is 1.0 strictly below that length and 0.0 at
and beyond it. -/
theorem C8_latent_padding_zero (noise : ℕ → ℚ) (duration : List ℚ)
    (sampleRate baseChunkSize chunkCompress latentDim : ℕ)
    (hcs : 0 < baseChunkSize * chunkCompress)
    (b : ℕ) (hb : b < duration.length) :
    (∀ dIdx, dIdx < latentDim * chunkCompress →
      ∀ t, t < (latentFrameLen duration sampleRate
          (baseChunkSize * chunkCompress)).toNat →
        validLen (duration.getD b 0) sampleRate
            (baseChunkSize * chunkCompress) ≤ (t : ℤ) →
        ((((sampleNoisyLatent noise duration sampleRate baseChunkSize
            chunkCompress latentDim).1.getD b []).getD dIdx []).getD t 0)
          = 0) ∧
    (∀ t, t < (latentFrameLen duration sampleRate
        (baseChunkSize * chunkCompress)).toNat →
      ((((sampleNoisyLatent noise duration sampleRate baseChunkSize
          chunkCompress latentDim).2.getD b []).getD 0 []).getD t 0) =
        if (t : ℤ) < validLen (duration.getD b 0) sampleRate
            (baseChunkSize * chunkCompress) then 1 else 0) := by
  have hcsZ : (0 : ℤ) < (baseChunkSize * chunkCompress : ℕ) := by
    exact_mod_cast hcs
  have hvl : ∀ d : ℚ,
      validLen d sampleRate (baseChunkSize * chunkCompress) =
      ⌊((⌊d * (sampleRate : ℚ)⌋ + (baseChunkSize * chunkCompress : ℕ) - 1
          : ℤ) : ℚ) / ((baseChunkSize * chunkCompress : ℕ) : ℚ)⌋ := by
    intro d
    rw [validLen, ceil_div_eq_ediv _ _ hcs, Rat.floor_intCast_div_natCast]
  have hmono : ∀ d ∈ duration,
      ⌊((⌊d * (sampleRate : ℚ)⌋ + (baseChunkSize * chunkCompress : ℕ) - 1
          : ℤ) : ℚ) / ((baseChunkSize * chunkCompress : ℕ) : ℚ)⌋ ≤
      latentFrameLen duration sampleRate (baseChunkSize * chunkCompress)
      := by
    intro d hd
    rw [latentFrameLen, Rat.floor_intCast_div_natCast,
      Rat.floor_intCast_div_natCast]
    refine Int.ediv_le_ediv hcsZ ?_
    have h1 : d * (sampleRate : ℚ) ≤ listMaxQ duration * (sampleRate : ℚ)
      := mul_le_mul_of_nonneg_right (le_listMaxQ hd) (by positivity)
    have := Int.floor_le_floor h1
    omega
  have hdb : duration.getD b 0 = duration[b] := List.getD_eq_getElem _ _ hb
  have hdbmem : duration[b] ∈ duration := List.getElem_mem hb
  -- the code's per-row length list
  have hlenb : ((duration.map fun d => ⌊d * (sampleRate : ℚ)⌋).map fun len
        => ⌊((len + (baseChunkSize * chunkCompress : ℕ) - 1 : ℤ) : ℚ) /
          ((baseChunkSize * chunkCompress : ℕ) : ℚ)⌋).getD b 0 =
      validLen (duration.getD b 0) sampleRate
        (baseChunkSize * chunkCompress) := by
    rw [List.getD_eq_getElem _ _ (by simpa using hb), List.getElem_map,
      List.getElem_map, hdb, hvl]
  have hmask : ∀ t, t < (latentFrameLen duration sampleRate
      (baseChunkSize * chunkCompress)).toNat →
      ((((sampleNoisyLatent noise duration sampleRate baseChunkSize
          chunkCompress latentDim).2.getD b []).getD 0 []).getD t 0) =
        if (t : ℤ) < validLen (duration.getD b 0) sampleRate
            (baseChunkSize * chunkCompress) then 1 else 0 := by
    intro t ht
    have hL0 : latentFrameLen duration sampleRate
        (baseChunkSize * chunkCompress) ≠ 0 := by
      intro h0
      rw [h0] at ht
      simp at ht
    rw [sampleNoisyLatent_snd]
    set lens := (duration.map fun d => ⌊d * (sampleRate : ℚ)⌋).map
      (fun len => ⌊((len + (baseChunkSize * chunkCompress : ℕ) - 1 : ℤ) :
        ℚ) / ((baseChunkSize * chunkCompress : ℕ) : ℚ)⌋) with hlensdef
    set L := latentFrameLen duration sampleRate
      (baseChunkSize * chunkCompress) with hLdef
    have hblen : b < lens.length := by
      rw [hlensdef]
      simpa using hb
    rw [lengthToMask_entry lens L hL0 b hblen t ht]
    rw [hlenb, min_eq_left]
    rw [hvl, hLdef, hdb]
    exact hmono duration[b] hdbmem
  refine ⟨?_, hmask⟩
  intro dIdx hd t ht hge
  -- xt row bounds
  have hxb : ((List.range duration.length).map fun b =>
      (List.range (latentDim * chunkCompress)).map fun d =>
        (List.range (latentFrameLen duration sampleRate
            (baseChunkSize * chunkCompress)).toNat).map fun u =>
          noise ((b * (latentDim * chunkCompress) + d) *
            (latentFrameLen duration sampleRate
              (baseChunkSize * chunkCompress)).toNat + u)).length =
      duration.length := by simp
  rw [sampleNoisyLatent_fst]
  rw [applyLatentMask_entry _ _ b dIdx t]
  · rw [hmask t ht, if_neg (by omega), mul_zero]
  · simpa using hb
  · simp only [List.getElem_map, List.getElem_range, List.length_map,
      List.length_range]
    exact hd
  · simp only [List.getElem_map, List.getElem_range, List.length_map,
      List.length_range]
    exact ht

/-- Witness for C8: two durations `0.5 s` and `1 s` at 4 Hz with chunk
size 2: row 0 has valid length 1 and its padding element at `t = 1` is
zero while the mask row is `[1, 0]`. -/
theorem C8_latent_padding_zero_witness :
    (0 < 2 * 1) ∧ (0 < [(1 : ℚ)/2, 1].length) ∧
    ((∀ dIdx, dIdx < 1 * 1 →
      ∀ t, t < (latentFrameLen [(1 : ℚ)/2, 1] 4 (2 * 1)).toNat →
        validLen ([(1 : ℚ)/2, 1].getD 0 0) 4 (2 * 1) ≤ (t : ℤ) →
        ((((sampleNoisyLatent (fun _ => 1) [(1 : ℚ)/2, 1] 4 2 1
            1).1.getD 0 []).getD dIdx []).getD t 0) = 0) ∧
    (∀ t, t < (latentFrameLen [(1 : ℚ)/2, 1] 4 (2 * 1)).toNat →
      ((((sampleNoisyLatent (fun _ => 1) [(1 : ℚ)/2, 1] 4 2 1
          1).2.getD 0 []).getD 0 []).getD t 0) =
        if (t : ℤ) < validLen ([(1 : ℚ)/2, 1].getD 0 0) 4 (2 * 1)
          then 1 else 0)) :=
  ⟨by decide, by decide,
   C8_latent_padding_zero (fun _ => 1) [(1 : ℚ)/2, 1] 4 2 1 1
     (by decide) 0 (by decide)⟩

/-! ## WAV encoder lemmas -/

theorem wavHeader_length (sampleRate dataSize : ℕ) :
    (wavHeader sampleRate dataSize).length = 44 := by
  simp [wavHeader, uint32LE, uint16LE]

theorem writeWavFile_drop44 (xs : List ℚ) (sr : ℕ) :
    (writeWavFile xs sr).drop 44 =
      (xs.map encodeSample).flatMap int16Bytes := by
  rw [writeWavFile, ← wavHeader_length sr (xs.length * 2), List.drop_left]

theorem int16Bytes_length (v : ℤ) : (int16Bytes v).length = 2 := rfl

theorem flatMap_int16_getD :
    ∀ (l : List ℤ) (i : ℕ), i < l.length →
      ((l.flatMap int16Bytes).getD (2 * i) 0 =
        (int16Bytes (l.getD i 0)).getD 0 0 ∧
       (l.flatMap int16Bytes).getD (2 * i + 1) 0 =
        (int16Bytes (l.getD i 0)).getD 1 0) := by
  intro l
  induction l with
  | nil => intro i hi; simp at hi
  | cons x rest ih =>
    intro i hi
    rw [List.flatMap_cons]
    cases i with
    | zero =>
      constructor
      · rw [Nat.mul_zero, List.getD_append _ _ _ _ (by rw [int16Bytes_length]; omega)]
        rfl
      · rw [Nat.mul_zero, List.getD_append _ _ _ _ (by rw [int16Bytes_length]; omega)]
        rfl
    | succ j =>
      have hj : j < rest.length := by simpa using hi
      have h2 : (int16Bytes x).length ≤ 2 * (j + 1) := by
        rw [int16Bytes_length]
        omega
      have h3 : (int16Bytes x).length ≤ 2 * (j + 1) + 1 := by
        rw [int16Bytes_length]
        omega
      constructor
      · rw [List.getD_append_right _ _ _ _ h2, int16Bytes_length,
          show 2 * (j + 1) - 2 = 2 * j from by omega]
        exact ((ih j hj).1).trans (by rfl)
      · rw [List.getD_append_right _ _ _ _ h3, int16Bytes_length,
          show 2 * (j + 1) + 1 - 2 = 2 * j + 1 from by omega]
        exact ((ih j hj).2).trans (by rfl)

theorem decodeInt16_int16Bytes (v : ℤ) (h1 : -32768 ≤ v)
    (h2 : v < 32768) :
    decodeInt16 ((int16Bytes v).getD 0 0) ((int16Bytes v).getD 1 0) = v
    := by
  have hmod : (0 : ℤ) ≤ v % 65536 := Int.emod_nonneg v (by omega)
  have hmod2 : v % 65536 < 65536 := Int.emod_lt_of_pos v (by omega)
  have hw : (((v % 65536).toNat : ℤ)) = v % 65536 :=
    Int.toNat_of_nonneg hmod
  have hww : (v % 65536).toNat < 65536 := by omega
  show decodeInt16 ((v % 65536).toNat % 256)
    ((v % 65536).toNat / 256 % 256) = v
  rw [decodeInt16]
  have hv : v % 65536 = v ∨ v % 65536 = v + 65536 := by omega
  split
  · next hlt => omega
  · next hlt => push_cast at hlt ⊢; omega

theorem encodeSample_bounds (x : ℚ) :
    -32767 ≤ encodeSample x ∧ encodeSample x ≤ 32767 := by
  rw [encodeSample]
  have h1 : (-1 : ℚ) ≤ clampQ x := le_max_left _ _
  have h2 : clampQ x ≤ 1 := max_le (by norm_num) (min_le_left _ _)
  constructor
  · rw [Int.le_floor]
    push_cast
    nlinarith
  · have : clampQ x * 32767 ≤ (32767 : ℚ) := by nlinarith
    calc ⌊clampQ x * 32767⌋ ≤ ⌊(32767 : ℚ)⌋ := Int.floor_le_floor this
      _ = 32767 := by norm_num

/-! ## Claim C2 -/

/-- C2 (amended): `writeWavFile` encodes each sample `x` as the signed
16-bit little-endian integer `floor(clamp(x, -1, 1) × 32767)` — the code
uses `Math.floor` (round toward minus infinity), not round-toward-zero.
`wavDataSample` reads back the `i`-th stored sample from the byte
buffer. -/
theorem C2_wav_sample_encoding_amended (xs : List ℚ) (sr : ℕ) (i : ℕ)
    (hi : i < xs.length) :
    wavDataSample (writeWavFile xs sr) i =
      ⌊max (-1) (min 1 (xs.getD i 0)) * 32767⌋ := by
  rw [wavDataSample, writeWavFile_drop44]
  have hm : i < (xs.map encodeSample).length := by simpa using hi
  obtain ⟨hlo, hhi⟩ := flatMap_int16_getD (xs.map encodeSample) i hm
  rw [hlo, hhi]
  have hget : (xs.map encodeSample).getD i 0 = encodeSample (xs.getD i 0)
    := by
    rw [List.getD_eq_getElem _ _ hm, List.getElem_map,
      List.getD_eq_getElem _ _ hi]
  rw [hget]
  obtain ⟨hb1, hb2⟩ := encodeSample_bounds (xs.getD i 0)
  rw [decodeInt16_int16Bytes _ (by omega) (by omega)]
  rfl

/-- C2 (counterexample): at `x = −0.5` the stored sample is
`floor(−16383.5) = −16384`, while the claimed round-toward-zero value is
`−16383`. -/
theorem C2_counterexample :
    wavDataSample (writeWavFile [-1/2] 16000) 0 = -16384 ∧
    ratTrunc (max (-1) (min 1 (-1/2 : ℚ)) * 32767) = -16383 ∧
    (-16384 : ℤ) ≠ -16383 :=
  ⟨by decide, by decide, by decide⟩

/-- Witness for the amended C2 at `x = −0.5`. -/
theorem C2_wav_sample_encoding_amended_witness :
    (0 < [(-1 : ℚ)/2].length) ∧
    wavDataSample (writeWavFile [(-1 : ℚ)/2] 16000) 0 =
      ⌊max (-1) (min 1 (([(-1 : ℚ)/2].getD 0 0))) * 32767⌋ :=
  ⟨by decide, C2_wav_sample_encoding_amended [(-1 : ℚ)/2] 16000 0
    (by decide)⟩
